import Mathlib

/-!
Verification development for the Patient-Management-System triage simulation.

The definitions below are a shallow embedding of the simulation core:

* src/simulation/triage/manchester.py  (ManchesterTriageSystem)
* src/simulation/triage/ollama.py      (OllamaTriageAgent)
* src/simulation/engine/simulator.py and src/simulation/triage_simulator.py
  (TriageSimulation / TriageSimulator, two line-identical classes)
* src/simulation/common/analytics.py   (aggregate_priority_breakdown,
  compute_system_metrics)

Numbers that the Python code holds in IEEE doubles are modelled as exact
rationals, except where a claim is numerically sensitive: for the 95th
percentile claim a bit-accurate model of double rounding is also provided.

The repository ships no config/mts_config.yaml, so the configuration data
(priority metadata, keyword rules, encounter-class map) is modelled from the
spec as an explicit value, and theorems that depend on the configuration are
stated over every configuration satisfying the validity predicate.
-/

namespace PMS

/- The Batteries arithmetic on Rat is marked irreducible, which blocks the
evaluation of concrete rational computations by decide; restore the default
transparency locally so that witnesses evaluate. -/
attribute [local semireducible] Rat.mul Rat.add Rat.sub Rat.inv Rat.ofScientific

/-! ## String helpers (Python str.lower and the in operator) -/

/-- Python text.lower() restricted to the ASCII case used by the code. -/
def strLower (s : String) : String := ⟨s.data.map Char.toLower⟩

/-- Whether needle occurs as a contiguous infix of hay, on character lists. -/
def listHasInfix (needle hay : List Char) : Bool :=
  hay.tails.any (fun t => needle.isPrefixOf t)

/-- Python membership test term in text for strings. -/
def strContains (hay needle : String) : Bool := listHasInfix needle.data hay.data

/-- Python str.strip with a custom character predicate, both ends. -/
def stripChars (p : Char → Bool) (s : String) : String :=
  ⟨((s.data.dropWhile p).reverse.dropWhile p).reverse⟩

/-- The normalisation str(v).strip().strip(doublequote).strip(quote) applied by
the Ollama agent before numeric coercion. -/
def pyNormNum (s : String) : String :=
  stripChars (fun c => c = '\'') (stripChars (fun c => c = '"') (stripChars Char.isWhitespace s))

/-! ## RNG model

Python uses the process-global random module.  We model the stream of draws as
an oracle list of naturals; each selection consumes one draw.  A selection
function returns an element of its candidate list determined by the oracle,
which is exactly the property the claims depend on (membership, and
determinism for a fixed oracle). -/

abbrev Rng := List Nat

/-- Consume one draw from the oracle stream. -/
def rngDraw (r : Rng) : Nat × Rng := (r.headD 0, r.tail)

/-- Model of random.choice: raises IndexError on an empty sequence (none),
otherwise returns an element selected by the oracle. -/
def pyChoice (l : List Int) (r : Rng) : Option (Int × Rng) :=
  if h : l = [] then none
  else
    let d := rngDraw r
    some (l.get ⟨d.1 % l.length, Nat.mod_lt _ (List.length_pos.mpr h)⟩, d.2)

/-- Model of random.choices(population, weights)[0]: raises on an empty
population (none), otherwise returns a population element selected by the
oracle.  The weights shape the distribution only, which no claim depends on;
they are received so that the caller computes them exactly as the source does
(raising if a weight lookup fails). -/
def pyChoices (l : List Int) (weights : List ℚ) (r : Rng) : Option (Int × Rng) :=
  if h : l = [] then none
  else
    let d := rngDraw r
    let _ := weights
    some (l.get ⟨d.1 % l.length, Nat.mod_lt _ (List.length_pos.mpr h)⟩, d.2)

/-! ## Data model -/

/-- Encounter record handed to the simulation (section 3 of the spec).  A
missing dictionary key is modelled by the default the code supplies through
dict.get. -/
structure Encounter where
  patient_id : String := ""
  arrival_min : ℚ := 0
  service_min : ℚ := 0
  encounter_class : String := ""
  reason_description : String := ""
  patient_history : String := ""
  age : Option ℚ := none
  priority : Option Int := none
deriving DecidableEq, Repr

/-- PriorityInfo metadata, as loaded from the priorities section of
mts_config.yaml by ManchesterTriageSystem._load_config. -/
structure PriorityInfo where
  name : String
  color : String
  max_wait_min : ℚ
  weight : ℚ
deriving DecidableEq, Repr

/-- One keyword rule from the keyword_rules section of the configuration. -/
structure KeywordRule where
  terms : List String
  threshold : ℚ
  assign : List Int
deriving DecidableEq, Repr

/-- The Manchester Triage System configuration, the data that
ManchesterTriageSystem._load_config reads from config/mts_config.yaml. -/
structure MtsConfig where
  priorities : List (Int × PriorityInfo)
  encounter_priority_map : List (String × List Int)
  default_priority : Int
  keyword_rules : List (String × KeywordRule)
deriving DecidableEq, Repr

/-- Modelled from the spec: the repository does not ship
config/mts_config.yaml, so this value reconstructs it from sections 2 and 4.2
of the spec (five priority levels, most urgent first, the official MTS wait
targets 0/10/60/120/240 that the code docstrings also state, sampling weights
from the clinical distribution quoted in the class docstring, keyword groups
mapping life-threat terms to priority 1 and minor or administrative terms to
priorities 4 and 5, and an encounter-class map). -/
def specMtsConfig : MtsConfig :=
  { priorities :=
      [ (1, { name := "Immediate", color := "Red", max_wait_min := 0, weight := 2/100 })
      , (2, { name := "Very Urgent", color := "Orange", max_wait_min := 10, weight := 164/1000 })
      , (3, { name := "Urgent", color := "Yellow", max_wait_min := 60, weight := 436/1000 })
      , (4, { name := "Standard", color := "Green", max_wait_min := 120, weight := 34/100 })
      , (5, { name := "Non-urgent", color := "Blue", max_wait_min := 240, weight := 4/100 }) ]
    encounter_priority_map :=
      [ ("emergency", [1, 2, 3])
      , ("urgentcare", [2, 3])
      , ("ambulatory", [3, 4])
      , ("wellness", [4, 5]) ]
    default_priority := 4
    keyword_rules :=
      [ ("immediate_priority", { terms := ["cardiac arrest", "not breathing"], threshold := 90, assign := [1] })
      , ("very_urgent_priority", { terms := ["chest pain", "severe pain"], threshold := 85, assign := [2] })
      , ("urgent_priority", { terms := ["fracture", "persistent vomiting"], threshold := 88, assign := [3] })
      , ("standard_priority", { terms := ["rash", "sore throat"], threshold := 90, assign := [4] })
      , ("non_urgent_priority", { terms := ["medication refill", "paperwork"], threshold := 90, assign := [4, 5] }) ]
  }

/-- Validity of a configuration: every priority that a rule can assign lies in
1..5, the default lies in 1..5, and metadata exists for each level 1..5.  The
spec requires all of this of the loaded configuration. -/
def mtsConfigValid (cfg : MtsConfig) : Prop :=
  (1 ≤ cfg.default_priority ∧ cfg.default_priority ≤ 5) ∧
  (∀ kr ∈ cfg.keyword_rules, ∀ p ∈ kr.2.assign, 1 ≤ p ∧ p ≤ 5) ∧
  (∀ m ∈ cfg.encounter_priority_map, m.2 ≠ [] ∧ ∀ p ∈ m.2, 1 ≤ p ∧ p ≤ 5) ∧
  (∀ p ∈ ([1, 2, 3, 4, 5] : List Int), (cfg.priorities.lookup p).isSome)

instance (cfg : MtsConfig) : Decidable (mtsConfigValid cfg) := by
  unfold mtsConfigValid; infer_instance

/-! ## ManchesterTriageSystem (src/simulation/triage/manchester.py)

The fuzzy matcher rapidfuzz.fuzz.partial_ratio is an external library; it is
modelled as an oracle pm giving the score of a term against a text.  Every
claim is insensitive to the scores themselves, only to the control flow around
the threshold comparisons, which is embedded exactly. -/

/-- Life threat discriminator terms, hard-coded in _apply_discriminator_rules. -/
def lifeThreatTerms : List String :=
  ["cardiac arrest", "not breathing", "airway compromise", "shock",
   "unresponsive", "fitting", "seizure", "major trauma", "exsanguinating"]

/-- Very urgent discriminator terms, hard-coded in _apply_discriminator_rules. -/
def veryUrgentTerms : List String :=
  ["severe pain", "chest pain", "difficulty breathing", "altered consciousness",
   "very hot", "stridor", "low oxygen", "vomiting blood", "major bleeding"]

/-- ManchesterTriageSystem._apply_discriminator_rules: life-threat terms at
fuzzy score at least 90 give priority 1, very-urgent terms at score at least
85 give priority 2. -/
def applyDiscriminatorRules (pm : String → String → ℚ) (reason : String) : Option Int :=
  if reason = "" then none
  else
    let text := strLower reason
    if lifeThreatTerms.any (fun t => pm t text ≥ 90) then some 1
    else if veryUrgentTerms.any (fun t => pm t text ≥ 85) then some 2
    else none

/-- ManchesterTriageSystem._apply_flowchart_logic: pediatric and adult
flowcharts over plain substring tests, age defaulting to 25. -/
def applyFlowchartLogic (reason : String) (e : Encounter) : Option Int :=
  if reason = "" then none
  else
    let text := strLower reason
    let age := e.age.getD 25
    if age < 16 then
      if ["worried", "parent", "concern", "not well"].any (fun t => strContains text t) then
        if ["not feeding", "hot", "vomiting"].any (fun t => strContains text t) then some 3
        else some 4
      else if ["breathless", "dyspnea", "respiratory"].any (fun t => strContains text t) then
        if strContains text "severe" || strContains text "distress" then some 2 else some 3
      else none
    else
      if strContains text "chest pain" then
        if ["cardiac", "heart", "severe"].any (fun t => strContains text t) then some 2 else some 3
      else if strContains text "abdominal pain" then
        if strContains text "severe" || strContains text "vomiting blood" then some 2 else some 3
      else none

/-- The ordered level names scanned by _apply_keyword_rules. -/
def keywordLevels : List String :=
  ["immediate_priority", "very_urgent_priority", "urgent_priority",
   "standard_priority", "non_urgent_priority", "high", "medium", "low"]

/-- Scan of the configured keyword rules in level order.  On the first term
whose fuzzy score reaches the rule threshold the source returns
random.choice(assign) if assign else None, ending the scan; an absent or empty
rule is skipped.  A none result therefore covers both no match anywhere and a
match whose assign list is empty, and in both cases the caller falls through
to encounter-class sampling, exactly as in the source. -/
def kwScanLevels (cfg : MtsConfig) (pm : String → String → ℚ) (text : String)
    (r : Rng) : List String → Option (Int × Rng)
  | [] => none
  | lv :: rest =>
    match cfg.keyword_rules.lookup lv with
    | none => kwScanLevels cfg pm text r rest
    | some rule =>
      if (rule.terms.map strLower).any (fun t => pm t text ≥ rule.threshold) then
        pyChoice rule.assign r
      else kwScanLevels cfg pm text r rest

/-- ManchesterTriageSystem._apply_keyword_rules. -/
def applyKeywordRules (cfg : MtsConfig) (pm : String → String → ℚ)
    (reason : String) (r : Rng) : Option (Int × Rng) :=
  if reason = "" then none
  else kwScanLevels cfg pm (strLower reason) r keywordLevels

/-- The weight list comprehension of the encounter-class branch: the weight
of each candidate priority, left to right, raising a KeyError (none) on the
first level missing from the metadata. -/
def lookupWeights (cfg : MtsConfig) : List Int → Option (List ℚ)
  | [] => some []
  | p :: ps =>
    match (cfg.priorities.lookup p).map (fun i => i.weight) with
    | none => none
    | some w =>
      match lookupWeights cfg ps with
      | none => none
      | some ws => some (w :: ws)

/-- ManchesterTriageSystem.assign_priority.  A none result models a raised
exception (a KeyError on the weight lookup, or random.choices on an empty
candidate list), which a valid configuration makes unreachable.  The rng
oracle is threaded exactly where the source consumes global randomness. -/
def manchesterAssign (cfg : MtsConfig) (pm : String → String → ℚ)
    (e : Encounter) (r : Rng) : Option (Int × Rng) :=
  let reason := e.reason_description
  match applyDiscriminatorRules pm reason with
  | some p => some (p, r)
  | none =>
    match applyFlowchartLogic reason e with
    | some p => some (p, r)
    | none =>
      match applyKeywordRules cfg pm reason r with
      | some pr => some pr
      | none =>
        match cfg.encounter_priority_map.lookup (strLower e.encounter_class) with
        | some ps =>
          match lookupWeights cfg ps with
          | some ws => pyChoices ps ws r
          | none => none
        | none => some (cfg.default_priority, r)

/-- The hard-coded complexity map of estimate_service_min: base minutes per
priority level, defaulting to 20.0 for any other integer. -/
def mtsBaseTime (p : Int) : ℚ :=
  if p = 1 then 90 else if p = 2 then 60 else if p = 3 then 40
  else if p = 4 then 20 else if p = 5 then 10 else 20

/-- The age adjustment of estimate_service_min: factor 1.2 below age 16,
else 1.1 above age 65, else 1, with age defaulting to 25. -/
def mtsAgeFactor (e : Encounter) : ℚ :=
  let age := e.age.getD 25
  if age < 16 then 6/5 else if age > 65 then 11/10 else 1

/-- ManchesterTriageSystem.estimate_service_min: always a value, never none. -/
def manchesterEstimate (e : Encounter) (p : Int) : Option ℚ :=
  some (mtsBaseTime p * mtsAgeFactor e)

/-- TriageSystem.get_priority_info: metadata lookup, raising (none) outside
the configured levels. -/
def getPriorityInfo (cfg : MtsConfig) (p : Int) : Option PriorityInfo :=
  cfg.priorities.lookup p

/-! ## OllamaTriageAgent (src/simulation/triage/ollama.py)

The HTTP transport, JSON decoding and the regex-based substring recovery of
_parse_with_strategies are external effects; each attempt of the retry loop is
modelled by an oracle giving either a failure (network error, timeout, raised
HTTP status, or a parse failure after both strategies) or a parsed Python
object.  Value extraction and validation on a parsed object are embedded
exactly; integer and float parsing of strings delegate to oracles.  Telemetry
writing is omitted because the source swallows every telemetry error and it
never influences the returned priority. -/

/-- A Python value as it can appear in a parsed model response. -/
inductive PyVal where
  | pyInt (n : Int)
  | pyFloat (q : ℚ)
  | pyStr (s : String)
  | pyOther
deriving DecidableEq, Repr

/-- A parsed JSON object: a dict with string keys, or any non-dict value,
which the source returns as-is from _parse_with_strategies. -/
inductive PyObj where
  | dict (d : List (String × PyVal))
  | other
deriving DecidableEq, Repr

/-- Outcome of one attempt of the retry loop in _call_ollama. -/
inductive CallAttempt where
  | fail
  | ok (o : PyObj)
deriving DecidableEq, Repr

/-- int(str(v).strip().strip(doublequote).strip(quote)) with exceptions as
none: succeeds on ints, fails on floats (their str form never parses as int)
and on non-numeric values; string parsing delegates to the pint oracle. -/
def coerceIntStr (pint : String → Option Int) : PyVal → Option Int
  | .pyInt n => some n
  | .pyFloat _ => none
  | .pyStr s => pint (pyNormNum s)
  | .pyOther => none

/-- OllamaTriageAgent._extract_priority_value: the priority field must coerce
to an integer in 1..5, anything else gives none. -/
def extractPriorityValue (pint : String → Option Int) (resp : PyObj) : Option Int :=
  match resp with
  | .other => none
  | .dict d =>
    match d.lookup "priority" with
    | none => none
    | some v =>
      match coerceIntStr pint v with
      | some num => if 1 ≤ num ∧ num ≤ 5 then some num else none
      | none => none

/-- float(str(v)...) with a positivity requirement, exceptions as none. -/
def coercePosNum (pfloat : String → Option ℚ) : PyVal → Option ℚ
  | .pyInt n => if (0 : ℚ) < (n : ℚ) then some (n : ℚ) else none
  | .pyFloat q => if 0 < q then some q else none
  | .pyStr s =>
    match pfloat (pyNormNum s) with
    | some q => if 0 < q then some q else none
    | none => none
  | .pyOther => none

/-- OllamaTriageAgent._extract_service_min_value: first of the accepted keys
whose value coerces to a positive number. -/
def extractServiceMinValue (pfloat : String → Option ℚ) (resp : PyObj) : Option ℚ :=
  match resp with
  | .other => none
  | .dict d =>
    ["service_min", "service_time_min", "service_minutes"].findSome?
      (fun k => (d.lookup k).bind (coercePosNum pfloat))

/-- Mutable per-agent fields that matter to a single assign_priority call. -/
structure OllamaAgent where
  req_retries : ℕ := 3
  mock_mode : Option String := none
  mock_i : ℕ := 0
deriving DecidableEq, Repr

/-- The synthetic priority produced in mock mode: a fixed level for p1..p5,
otherwise the rotating cycle 1..5. -/
def mockPriority (a : OllamaAgent) (m : String) : Int :=
  if m = "p1" then 1 else if m = "p2" then 2 else if m = "p3" then 3
  else if m = "p4" then 4 else if m = "p5" then 5
  else [1, 2, 3, 4, 5].getD (a.mock_i % 5) 1

/-- OllamaTriageAgent._call_ollama: mock short-circuit, else up to req_retries
attempts, returning the first parsed object; none models the RuntimeError
raised after the retry budget is exhausted. -/
def callOllama (a : OllamaAgent) (http : ℕ → CallAttempt) : Option PyObj :=
  match a.mock_mode with
  | some m => some (.dict [("priority", .pyInt (mockPriority a m)), ("explanation", .pyStr "mock")])
  | none =>
    (List.range a.req_retries).findSome? (fun i =>
      match http i with
      | .ok o => some o
      | .fail => none)

/-- OllamaTriageAgent.assign_priority: on a parsed response with a valid
priority, return it; on any failure (call failure, missing or invalid
priority) fall back unconditionally to ManchesterTriageSystem.assign_priority
on the same encounter with the same RNG state.  The source re-checks the
bounds after extraction; both guards are embedded. -/
def ollamaAssign (a : OllamaAgent) (cfg : MtsConfig) (pm : String → String → ℚ)
    (pint : String → Option Int) (http : ℕ → CallAttempt)
    (e : Encounter) (r : Rng) : Option (Int × Rng) :=
  match callOllama a http with
  | some resp =>
    match extractPriorityValue pint resp with
    | some p => if 1 ≤ p ∧ p ≤ 5 then some (p, r) else manchesterAssign cfg pm e r
    | none => manchesterAssign cfg pm e r
  | none => manchesterAssign cfg pm e r

/-! ## Metrics aggregation (src/simulation/common/analytics.py)

The pandas pipeline is modelled over exact rationals: grouping sorts the
priority keys, the 95th percentile uses linear interpolation over the sorted
group, and round(1) scales by ten, rounds to the nearest integer with ties to
even (the numpy rint rule), and unscales. -/

/-- One completion event as appended by patient_process. -/
structure CompletionEvent where
  patient_id : String
  priority : Int
  arrival_min : ℚ
  wait_min : ℚ
  service_min : ℚ
  max_wait_min : ℚ
deriving DecidableEq, Repr

/-- Floor of a rational as an integer, computed by floor division of the
numerator by the denominator so that kernel evaluation reduces. -/
def qfloor (x : ℚ) : ℤ := Int.fdiv x.num (x.den : ℤ)

/-- Round to the nearest integer with ties to even, the numpy rint rule. -/
def rintq (x : ℚ) : ℚ :=
  let f : ℤ := qfloor x
  let r := x - f
  if r < 1/2 then (f : ℚ)
  else if 1/2 < r then (f : ℚ) + 1
  else if f % 2 = 0 then (f : ℚ) else (f : ℚ) + 1

/-- numpy round to one decimal place on exact rationals: scale by ten, rint,
unscale. -/
def round1 (x : ℚ) : ℚ := rintq (x * 10) / 10

/-- Insertion into a list sorted ascending. -/
def insertSortedQ (x : ℚ) : List ℚ → List ℚ
  | [] => [x]
  | y :: ys => if x ≤ y then x :: y :: ys else y :: insertSortedQ x ys

/-- Ascending insertion sort, the order pandas uses before interpolating. -/
def sortQ (l : List ℚ) : List ℚ := l.foldr insertSortedQ []

/-- Linear-interpolated 95th percentile of a list, the pandas and numpy
default method over exact rationals: virtual index 0.95 times (n minus one),
then interpolate between the neighbouring order statistics. -/
def quantile95 (l : List ℚ) : ℚ :=
  match sortQ l with
  | [] => 0
  | w :: ws =>
    let s := w :: ws
    let n := s.length
    let idx : ℚ := (19/20) * ((n : ℚ) - 1)
    let j : ℕ := (qfloor idx).toNat
    let g : ℚ := idx - (j : ℚ)
    match s.drop j with
    | [] => 0
    | [a] => a
    | a :: b :: _ => a + g * (b - a)

/-- The breach test of the aggregation: wait_min strictly above max_wait_min. -/
def eventBreached (ev : CompletionEvent) : Bool :=
  decide (ev.max_wait_min < ev.wait_min)

/-- Sorted insertion without duplicates, for the group keys. -/
def insertUniq (x : Int) : List Int → List Int
  | [] => [x]
  | y :: ys => if x = y then y :: ys else if x < y then x :: y :: ys else y :: insertUniq x ys

/-- The group keys of groupby priority: the distinct priorities present in
the events, ascending, as pandas sorts group keys. -/
def groupKeys (events : List CompletionEvent) : List Int :=
  (events.map (fun ev => ev.priority)).foldr insertUniq []

/-- Per-priority statistics row of aggregate_priority_breakdown. -/
structure PriorityStats where
  name : String
  target_max_wait_min : ℚ
  patients : ℕ
  avg_wait_min : ℚ
  p95_wait_min : ℚ
  breach_rate_percent : ℚ
  breaches : ℕ
deriving DecidableEq, Repr

/-- The aggregation for one priority group: count, rounded mean wait, rounded
interpolated 95th percentile, breach count, rounded breach rate, and metadata
(name from the color, target from the configured max wait, with the source
fallback to the group maximum when metadata is missing). -/
def priorityStatsFor (cfg : MtsConfig) (events : List CompletionEvent) (p : Int) :
    PriorityStats :=
  let grp := events.filter (fun ev => ev.priority = p)
  let waits := grp.map (fun ev => ev.wait_min)
  let patients := grp.length
  let breaches := (grp.filter eventBreached).length
  let meta := getPriorityInfo cfg p
  let color := match meta with | some i => i.color | none => "Unknown"
  let target : ℚ :=
    match meta with
    | some i => i.max_wait_min
    | none => (grp.map (fun ev => ev.max_wait_min)).foldr max 0
  { name := "P" ++ toString p ++ " (" ++ color ++ ")"
    target_max_wait_min := target
    patients := patients
    avg_wait_min := round1 (waits.sum / (patients : ℚ))
    p95_wait_min := round1 (quantile95 waits)
    breach_rate_percent := round1 ((breaches : ℚ) / (patients : ℚ) * 100)
    breaches := breaches }

/-- aggregate_priority_breakdown: empty input gives the empty map, otherwise
one row per distinct priority present in the events. -/
def aggregatePriorityBreakdown (cfg : MtsConfig) (events : List CompletionEvent) :
    List (Int × PriorityStats) :=
  if events = [] then []
  else (groupKeys events).map (fun p => (p, priorityStatsFor cfg events p))

/-- Overall system metrics record. -/
structure SystemMetrics where
  total_patients : ℕ
  overall_breach_rate_percent : ℚ
  overall_avg_wait_min : ℚ
  overall_p95_wait_min : ℚ
deriving DecidableEq, Repr

/-- compute_system_metrics: all-zero record on an empty event list, otherwise
the four overall statistics over the ungrouped events. -/
def computeSystemMetrics (events : List CompletionEvent) : SystemMetrics :=
  if events = [] then
    { total_patients := 0
      overall_breach_rate_percent := 0
      overall_avg_wait_min := 0
      overall_p95_wait_min := 0 }
  else
    let waits := events.map (fun ev => ev.wait_min)
    let n := events.length
    { total_patients := n
      overall_breach_rate_percent :=
        round1 (((events.filter eventBreached).length : ℚ) / (n : ℚ) * 100)
      overall_avg_wait_min := round1 (waits.sum / (n : ℚ))
      overall_p95_wait_min := round1 (quantile95 waits) }

/-! ## Bit-accurate double-precision model for the percentile pipeline

The percentile claim is sensitive to IEEE 754 binary64 rounding, so the exact
pipeline pandas and numpy execute is also modelled: every arithmetic result is
rounded to 53 significant bits (round to nearest, ties to even), matching
binary64 for the normal range exercised here. -/

/-- Integer powers of two as rationals. -/
def pow2 : ℤ → ℚ
  | .ofNat n => (2 : ℚ) ^ n
  | .negSucc n => 1 / (2 : ℚ) ^ (n + 1)

/-- The binary exponent of a nonzero rational, searched over the range that
covers every value in this development. -/
def flExp (q : ℚ) : ℤ :=
  let a := |q|
  match (List.range 161).find? (fun i =>
    decide (pow2 ((i : ℤ) - 80) ≤ a ∧ a < pow2 ((i : ℤ) - 80 + 1))) with
  | some i => (i : ℤ) - 80
  | none => 0

/-- Round a rational to the nearest binary64 value (normal range): round the
significand to 53 bits with ties to even. -/
def fl (q : ℚ) : ℚ :=
  if q = 0 then 0
  else
    let ulp := pow2 (flExp q - 52)
    rintq (q / ulp) * ulp

/-- The numpy linear interpolation step between order statistics a and b at
parameter t, including the rewrite numpy applies for t at or above one half. -/
def dlerp (a b t : ℚ) : ℚ :=
  let diff := fl (b - a)
  if 1/2 ≤ t then fl (b - fl (diff * fl (1 - t)))
  else fl (a + fl (diff * t))

/-- The 95th percentile exactly as the double pipeline computes it: virtual
index fl(fl(0.95) times (n minus 1)), split into floor and fractional part,
then the numpy interpolation. -/
def dQuantile95 (l : List ℚ) : ℚ :=
  match sortQ (l.map fl) with
  | [] => 0
  | w :: ws =>
    let s := w :: ws
    let n := s.length
    let idx := fl (fl (19/20) * fl ((n : ℚ) - 1))
    let j : ℕ := (qfloor idx).toNat
    let g := fl (idx - (j : ℚ))
    match s.drop j with
    | [] => 0
    | [a] => a
    | a :: b :: _ => dlerp a b g

/-- numpy round to one decimal in doubles: multiply by ten, rint with ties to
even, divide by ten, each operation rounded to binary64. -/
def dRound1 (x : ℚ) : ℚ := fl (rintq (fl (x * 10)) / 10)

/-! ## Simulation engine
(src/simulation/engine/simulator.py, src/simulation/triage_simulator.py)

TriageSimulation and TriageSimulator are two line-identical classes; one model
covers both.  SimPy is embedded as an explicit discrete-event loop with the
event ordering SimPy produces:

* all patient processes start at logical time zero and suspend until their
  arrival; arrival timeouts fire in ascending (arrival, registration index)
  order, because equal-delay timeouts fire in creation order;
* a request against the PriorityResource seizes a free slot immediately and
  synchronously (simpy Resource._do_put appends to users inside request()), so
  the loop performs pending assignments before advancing time;
* the resource queue is ordered by the key (priority, request time, insertion
  order) of simpy.PriorityRequest;
* at equal times, arrival timeouts fire before service-completion timeouts
  (their event ids are smaller, having been scheduled at time zero), and
  among simultaneous completions the earlier-started service fires first;
* env.run(until=h) does not process events scheduled at or after h, because
  the stop event at h has urgent priority.

A negative arrival delay makes simpy raise at process start, aborting the
run; the error flag models every raised exception. -/

/-- The ceiling of a rational, by floor of the negation, kernel-reducible. -/
def qceil (x : ℚ) : ℤ := -(qfloor (-x))

/-- The triage-policy interface the engine calls at each arrival. -/
structure TriagePolicy where
  assignPriority : Encounter → Rng → Option (Int × Rng)
  maxWaitOf : Int → Option ℚ
  estimateServiceMin : Encounter → Int → Option ℚ

/-- The service-time selection of patient_process: the policy estimate when
present, else the encounter-supplied service_min. -/
def chosenServiceMin (pol : TriagePolicy) (e : Encounter) (p : Int) : ℚ :=
  match pol.estimateServiceMin e p with
  | some v => v
  | none => e.service_min

/-- The rule-based policy as the engine sees it: ManchesterTriageSystem
assignment, metadata lookup for the max wait, and the service estimate. -/
def manchesterPolicy (cfg : MtsConfig) (pm : String → String → ℚ) : TriagePolicy :=
  { assignPriority := manchesterAssign cfg pm
    maxWaitOf := fun p => (getPriorityInfo cfg p).map (fun i => i.max_wait_min)
    estimateServiceMin := manchesterEstimate }

/-- A registered patient process that has not reached its arrival time. -/
structure PendingPatient where
  enc : Encounter
  seq : ℕ
deriving DecidableEq, Repr

/-- A patient waiting in the priority-resource queue, with the data computed
at its arrival instant. -/
structure QueuedPatient where
  pid : String
  seq : ℕ
  arrival : ℚ
  priority : Int
  service : ℚ
  maxWait : ℚ
deriving DecidableEq, Repr

/-- A patient holding a server, together with its service start time. -/
structure RunningPatient where
  q : QueuedPatient
  start : ℚ
deriving DecidableEq, Repr

/-- The completion instant of a running patient. -/
def RunningPatient.finish (r : RunningPatient) : ℚ := r.start + r.q.service

/-- Ordering of arrival events: by (arrival time, registration index). -/
def pendLE (x y : PendingPatient) : Bool :=
  decide (x.enc.arrival_min < y.enc.arrival_min ∨
    (x.enc.arrival_min = y.enc.arrival_min ∧ x.seq ≤ y.seq))

/-- Insertion into the arrival-ordered pending list. -/
def insertPend (x : PendingPatient) : List PendingPatient → List PendingPatient
  | [] => [x]
  | y :: ys => if pendLE x y then x :: y :: ys else y :: insertPend x ys

/-- Sort the registered processes by (arrival, registration index). -/
def sortPend (l : List PendingPatient) : List PendingPatient :=
  l.foldr insertPend []

/-- The simpy.PriorityRequest ordering key comparison:
(priority, request time, insertion order), insertion order being the arrival
processing order, which equals the registration index here. -/
def queueLE (x y : QueuedPatient) : Bool :=
  decide (x.priority < y.priority ∨
    (x.priority = y.priority ∧ (x.arrival < y.arrival ∨
      (x.arrival = y.arrival ∧ x.seq ≤ y.seq))))

/-- Insertion into the key-ordered resource queue. -/
def insertQueue (x : QueuedPatient) : List QueuedPatient → List QueuedPatient
  | [] => [x]
  | y :: ys => if queueLE x y then x :: y :: ys else y :: insertQueue x ys

/-- Remove the leftmost running patient with the earliest completion instant,
the completion event simpy processes next. -/
def popMinFinish : List RunningPatient → Option (RunningPatient × List RunningPatient)
  | [] => none
  | r :: rs =>
    match popMinFinish rs with
    | none => some (r, [])
    | some (m, rest) =>
      if r.finish ≤ m.finish then some (r, rs) else some (m, r :: rest)

/-- The engine state: the logical clock, the RNG oracle stream, the patients
not yet arrived, the resource queue, the services in progress, the logged
events with the completed counter, and the exception flag. -/
structure SimState where
  time : ℚ
  rng : Rng
  pending : List PendingPatient
  queue : List QueuedPatient
  inService : List RunningPatient
  events : List CompletionEvent
  completed : ℕ
  error : Bool
deriving Repr

/-- Arrival processing of patient_process: resolve the priority through the
policy (consuming randomness), fetch the max-wait metadata, choose the
service time, and join the resource queue; a raised exception (none from the
policy or the metadata lookup) sets the error flag. -/
def arrivalStep (pol : TriagePolicy) (st : SimState) (pp : PendingPatient)
    (rest : List PendingPatient) : SimState :=
  let t := pp.enc.arrival_min
  match pol.assignPriority pp.enc st.rng with
  | none => { st with time := t, pending := rest, error := true }
  | some (p, r2) =>
    match pol.maxWaitOf p with
    | none => { st with time := t, pending := rest, rng := r2, error := true }
    | some mw =>
      { st with
        time := t
        rng := r2
        pending := rest
        queue := insertQueue
          { pid := pp.enc.patient_id, seq := pp.seq, arrival := t, priority := p,
            service := chosenServiceMin pol pp.enc p, maxWait := mw } st.queue }

/-- Seizing a free server: the queue head starts service at the current
instant. -/
def assignStep (st : SimState) (q : QueuedPatient) (rest : List QueuedPatient) :
    SimState :=
  { st with queue := rest, inService := st.inService ++ [{ q := q, start := st.time }] }

/-- Service completion: the event is logged and the completed counter is
incremented together, then the server is released. -/
def completionStep (st : SimState) (r : RunningPatient)
    (rest : List RunningPatient) : SimState :=
  { st with
    time := r.finish
    inService := rest
    events := st.events ++
      [{ patient_id := r.q.pid, priority := r.q.priority, arrival_min := r.q.arrival,
         wait_min := r.start - r.q.arrival, service_min := r.q.service,
         max_wait_min := r.q.maxWait }]
    completed := st.completed + 1 }

/-- Advance the clock to the next event strictly below the horizon: the
earliest pending arrival or the earliest completion, arrivals first on a
tie. -/
def advanceSim (pol : TriagePolicy) (horizon : ℚ) (st : SimState) : Option SimState :=
  match st.pending, popMinFinish st.inService with
  | [], none => none
  | pp :: rest, none =>
    if pp.enc.arrival_min < horizon then some (arrivalStep pol st pp rest) else none
  | [], some (r, rrest) =>
    if r.finish < horizon then some (completionStep st r rrest) else none
  | pp :: rest, some (r, rrest) =>
    if pp.enc.arrival_min ≤ r.finish then
      if pp.enc.arrival_min < horizon then some (arrivalStep pol st pp rest) else none
    else
      if r.finish < horizon then some (completionStep st r rrest) else none

/-- One engine step: a raised exception stops the run; otherwise a waiting
patient seizes a free server at the current instant, and failing that the
clock advances to the next event. -/
def stepSim (pol : TriagePolicy) (servers : ℕ) (horizon : ℚ) (st : SimState) :
    Option SimState :=
  if st.error then none
  else
    match st.queue with
    | q :: rest =>
      if st.inService.length < servers then some (assignStep st q rest)
      else advanceSim pol horizon st
    | [] => advanceSim pol horizon st

/-- Run the event loop on the given fuel; the fuel is chosen large enough in
runSimulation that the loop always reaches quiescence. -/
def simLoop (pol : TriagePolicy) (servers : ℕ) (horizon : ℚ) :
    ℕ → SimState → SimState
  | 0, st => st
  | fuel + 1, st =>
    match stepSim pol servers horizon st with
    | none => st
    | some st2 => simLoop pol servers horizon fuel st2

/-- The last arrival among the encounters, zero for an empty batch, as
computed in run_simulation. -/
def lastArrival (es : List Encounter) : ℚ :=
  match es.map (fun e => e.arrival_min) with
  | [] => 0
  | a :: rest => rest.foldl max a

/-- The conservative horizon of run_simulation: the supplied horizon maxed
with last arrival plus ceil(n over max(servers,1)) batches of the 480-minute
service cap plus 60 minutes of slack. -/
def safeHorizon (es : List Encounter) (servers : ℕ) (horizon : ℚ) : ℚ :=
  let n := es.length
  let batches : ℤ := qceil ((n : ℚ) / ((max servers 1 : ℕ) : ℚ))
  max horizon (lastArrival es + (batches : ℚ) * 480 + 60)

/-- Tag each registered encounter with its registration index, starting at
the given index. -/
def tagSeq : ℕ → List Encounter → List PendingPatient
  | _, [] => []
  | i, e :: rest => { enc := e, seq := i } :: tagSeq (i + 1) rest

/-- The initial engine state: all processes registered, arrivals ordered as
simpy fires them; a negative arrival delay raises at process start, setting
the error flag before any event. -/
def initState (es : List Encounter) (r : Rng) : SimState :=
  { time := 0
    rng := r
    pending := sortPend (tagSeq 0 es)
    queue := []
    inService := []
    events := []
    completed := 0
    error := es.any (fun e => decide (e.arrival_min < 0)) }

/-- TriageSimulation.run_simulation: register all encounters, compute the
safe horizon, and run the event loop to quiescence; the returned state holds
the completed counter and the event log of the results dictionary. -/
def runSimulation (pol : TriagePolicy) (servers : ℕ) (es : List Encounter)
    (horizon : ℚ) (r : Rng) : SimState :=
  simLoop pol servers (safeHorizon es servers horizon) (3 * es.length + 1)
    (initState es r)

/-- The service start instant recorded in a logged event. -/
def evStart (ev : CompletionEvent) : ℚ := ev.arrival_min + ev.wait_min

/-- The completion instant recorded in a logged event. -/
def evFinish (ev : CompletionEvent) : ℚ := ev.arrival_min + ev.wait_min + ev.service_min

/-- The service start times of every patient that has entered service. -/
def startsOf (st : SimState) : List ℚ :=
  st.events.map evStart ++ st.inService.map (fun r => r.start)

/-! ## Concrete instances used by witnesses -/

/-- A concrete fuzzy-score instance for witnesses: full score exactly when the
term occurs verbatim in the text, as partial_ratio scores an exact substring
at 100. -/
def pmSub (term text : String) : ℚ := if strContains text term then 100 else 0

/-- A concrete string-to-integer parser instance for witnesses. -/
def pintNone : String → Option Int := fun _ => none

/-- An encounter whose reason matches the life-threat discriminator, giving
priority 1 deterministically. -/
def encCardiacArrest : Encounter :=
  { patient_id := "A", arrival_min := 0, service_min := 10,
    encounter_class := "emergency", reason_description := "cardiac arrest" }

/-- An encounter with no reason and no class, taking the default priority 4
deterministically. -/
def encBlank : Encounter :=
  { patient_id := "B", arrival_min := 0, service_min := 10 }

/-- A remote endpoint that fails every attempt, as an always-HTTP-500 server
does through raise_for_status. -/
def httpAlways500 : ℕ → CallAttempt := fun _ => CallAttempt.fail

/-- An agent with the default retry budget and mock mode off. -/
def defaultAgent : OllamaAgent := {}

/-- The three priority-2 events of the breach-rate example: waits 5, 15 and 8
against a 10-minute target. -/
def c6Events : List CompletionEvent :=
  [ { patient_id := "a", priority := 2, arrival_min := 0, wait_min := 5,
      service_min := 1, max_wait_min := 10 }
  , { patient_id := "b", priority := 2, arrival_min := 0, wait_min := 15,
      service_min := 1, max_wait_min := 10 }
  , { patient_id := "c", priority := 2, arrival_min := 0, wait_min := 8,
      service_min := 1, max_wait_min := 10 } ]

/-- The ten-event single-priority list of the percentile example, with waits
1 through 10. -/
def c7Waits : List ℚ := [1, 2, 3, 4, 5, 6, 7, 8, 9, 10]

/-! ## Helper lemmas -/

theorem lookup_mem {α β : Type} [BEq α] [LawfulBEq α] {l : List (α × β)} {k : α}
    {v : β} (h : l.lookup k = some v) : (k, v) ∈ l := by
  induction l with
  | nil => simp [List.lookup] at h
  | cons x xs ih =>
    obtain ⟨k1, v1⟩ := x
    simp only [List.lookup] at h
    cases hbeq : k == k1 with
    | true =>
      rw [hbeq] at h
      simp only [Option.some.injEq] at h
      subst h
      have : k = k1 := eq_of_beq hbeq
      subst this
      exact List.mem_cons_self _ _
    | false =>
      rw [hbeq] at h
      exact List.mem_cons_of_mem _ (ih h)

theorem pyChoice_mem {l : List Int} {r : Rng} {p : Int} {r2 : Rng}
    (h : pyChoice l r = some (p, r2)) : p ∈ l := by
  unfold pyChoice at h
  split at h
  · exact absurd h (by simp)
  · simp only [Option.some.injEq, Prod.mk.injEq] at h
    rw [← h.1]
    exact List.get_mem _ _ _

theorem pyChoices_mem {l : List Int} {w : List ℚ} {r : Rng} {p : Int} {r2 : Rng}
    (h : pyChoices l w r = some (p, r2)) : p ∈ l := by
  unfold pyChoices at h
  split at h
  · exact absurd h (by simp)
  · simp only [Option.some.injEq, Prod.mk.injEq] at h
    rw [← h.1]
    exact List.get_mem _ _ _

theorem lookupWeights_isSome {cfg : MtsConfig} :
    ∀ {l : List Int}, (∀ p ∈ l, (cfg.priorities.lookup p).isSome) →
      (lookupWeights cfg l).isSome := by
  intro l
  induction l with
  | nil => intro _; simp [lookupWeights]
  | cons p ps ih =>
    intro h
    have hp := h p (List.mem_cons_self _ _)
    obtain ⟨i, hi⟩ := Option.isSome_iff_exists.mp hp
    have ht := ih (fun q hq => h q (List.mem_cons_of_mem _ hq))
    obtain ⟨ws, hws⟩ := Option.isSome_iff_exists.mp ht
    simp [lookupWeights, hi, hws]

theorem applyDiscriminatorRules_bounds {pm : String → String → ℚ} {reason : String}
    {p : Int} (h : applyDiscriminatorRules pm reason = some p) : 1 ≤ p ∧ p ≤ 5 := by
  unfold applyDiscriminatorRules at h
  dsimp only at h
  split_ifs at h <;> simp at h <;> omega

theorem applyFlowchartLogic_bounds {reason : String} {e : Encounter} {p : Int}
    (h : applyFlowchartLogic reason e = some p) : 1 ≤ p ∧ p ≤ 5 := by
  unfold applyFlowchartLogic at h
  dsimp only at h
  split_ifs at h <;> simp at h <;> omega

theorem kwScanLevels_bounds {cfg : MtsConfig} {pm : String → String → ℚ} {text : String}
    (hv : ∀ kr ∈ cfg.keyword_rules, ∀ q ∈ kr.2.assign, 1 ≤ q ∧ q ≤ 5) :
    ∀ (lvs : List String) (r : Rng) (p : Int) (r2 : Rng),
      kwScanLevels cfg pm text r lvs = some (p, r2) → 1 ≤ p ∧ p ≤ 5 := by
  intro lvs
  induction lvs with
  | nil => intro r p r2 h; simp [kwScanLevels] at h
  | cons lv rest ih =>
    intro r p r2 h
    rw [kwScanLevels] at h
    cases hlk : cfg.keyword_rules.lookup lv with
    | none =>
      rw [hlk] at h
      exact ih r p r2 h
    | some rule =>
      rw [hlk] at h
      dsimp only at h
      split at h
      · exact hv (lv, rule) (lookup_mem hlk) p (pyChoice_mem h)
      · exact ih r p r2 h

theorem applyKeywordRules_bounds {cfg : MtsConfig} {pm : String → String → ℚ}
    {reason : String} {r : Rng} {p : Int} {r2 : Rng}
    (hv : ∀ kr ∈ cfg.keyword_rules, ∀ q ∈ kr.2.assign, 1 ≤ q ∧ q ≤ 5)
    (h : applyKeywordRules cfg pm reason r = some (p, r2)) : 1 ≤ p ∧ p ≤ 5 := by
  unfold applyKeywordRules at h
  split_ifs at h
  exact kwScanLevels_bounds hv _ r p r2 h

/-- Every path of ManchesterTriageSystem.assign_priority succeeds under a
valid configuration and returns a level in 1..5. -/
theorem manchesterAssign_valid (cfg : MtsConfig) (hv : mtsConfigValid cfg)
    (pm : String → String → ℚ) (e : Encounter) (r : Rng) :
    ∃ p r2, manchesterAssign cfg pm e r = some (p, r2) ∧ 1 ≤ p ∧ p ≤ 5 := by
  obtain ⟨hdef, hkw, hmap, hmeta⟩ := hv
  unfold manchesterAssign
  cases hd : applyDiscriminatorRules pm e.reason_description with
  | some p =>
    exact ⟨p, r, by simp [hd], applyDiscriminatorRules_bounds hd⟩
  | none =>
    cases hf : applyFlowchartLogic e.reason_description e with
    | some p =>
      exact ⟨p, r, by simp [hd, hf], applyFlowchartLogic_bounds hf⟩
    | none =>
      cases hk : applyKeywordRules cfg pm e.reason_description r with
      | some pr =>
        exact ⟨pr.1, pr.2, by simp [hd, hf, hk], applyKeywordRules_bounds hkw hk⟩
      | none =>
        cases hm : cfg.encounter_priority_map.lookup (strLower e.encounter_class) with
        | none =>
          exact ⟨cfg.default_priority, r, by simp [hd, hf, hk, hm], hdef⟩
        | some ps =>
          have hmem := lookup_mem hm
          have hpsne : ps ≠ [] := (hmap _ hmem).1
          have hps : ∀ q ∈ ps, 1 ≤ q ∧ q ≤ 5 := (hmap _ hmem).2
          have hwis : (lookupWeights cfg ps).isSome := by
            apply lookupWeights_isSome
            intro q hq
            have h15 : q ∈ ([1, 2, 3, 4, 5] : List Int) := by
              obtain ⟨h1, h2⟩ := hps q hq
              interval_cases q <;> simp
            exact hmeta q h15
          obtain ⟨ws, hw⟩ := Option.isSome_iff_exists.mp hwis
          have hex : ∃ pr, pyChoices ps ws r = some pr := by
            unfold pyChoices
            split
            · rename_i hnil
              exact absurd hnil hpsne
            · exact ⟨_, rfl⟩
          obtain ⟨pr, hc⟩ := hex
          exact ⟨pr.1, pr.2, by simp [hd, hf, hk, hm, hw, hc], hps pr.1 (pyChoices_mem hc)⟩

theorem mockPriority_bounds (a : OllamaAgent) (m : String) :
    1 ≤ mockPriority a m ∧ mockPriority a m ≤ 5 := by
  unfold mockPriority
  split_ifs <;> try omega
  have h5 : a.mock_i % 5 < 5 := Nat.mod_lt _ (by omega)
  have : a.mock_i % 5 = 0 ∨ a.mock_i % 5 = 1 ∨ a.mock_i % 5 = 2 ∨
      a.mock_i % 5 = 3 ∨ a.mock_i % 5 = 4 := by omega
  rcases this with h | h | h | h | h <;> rw [h] <;> simp

theorem extractPriorityValue_bounds {pint : String → Option Int} {resp : PyObj}
    {p : Int} (h : extractPriorityValue pint resp = some p) : 1 ≤ p ∧ p ≤ 5 := by
  unfold extractPriorityValue at h
  cases resp with
  | other => simp at h
  | dict d =>
    dsimp only at h
    cases hl : d.lookup "priority" with
    | none => rw [hl] at h; simp at h
    | some v =>
      rw [hl] at h
      dsimp only at h
      cases hc : coerceIntStr pint v with
      | none => rw [hc] at h; simp at h
      | some num =>
        rw [hc] at h
        dsimp only at h
        split_ifs at h with hb
        simp only [Option.some.injEq] at h
        exact h ▸ hb

/-- C1: For every encounter, ManchesterTriageSystem.assign_priority under a
valid configuration, and OllamaTriageAgent.assign_priority against any remote
behaviour whatsoever (errors, timeouts, garbage, or any parsed object),
return an integer priority in 1..5; for the agent this is forced by the
validation guard on success and by the unconditional Manchester fallback on
every failure path. -/
theorem c1_priority_always_valid (cfg : MtsConfig) (hv : mtsConfigValid cfg)
    (pm : String → String → ℚ) (pint : String → Option Int)
    (a : OllamaAgent) (http : ℕ → CallAttempt) (e : Encounter) (r : Rng) :
    (∃ p r2, manchesterAssign cfg pm e r = some (p, r2) ∧ 1 ≤ p ∧ p ≤ 5) ∧
    (∃ p r2, ollamaAssign a cfg pm pint http e r = some (p, r2) ∧ 1 ≤ p ∧ p ≤ 5) := by
  refine ⟨manchesterAssign_valid cfg hv pm e r, ?_⟩
  unfold ollamaAssign
  cases hc : callOllama a http with
  | none => simpa [hc] using manchesterAssign_valid cfg hv pm e r
  | some resp =>
    cases hx : extractPriorityValue pint resp with
    | none => simpa [hc, hx] using manchesterAssign_valid cfg hv pm e r
    | some p =>
      have hb := extractPriorityValue_bounds hx
      exact ⟨p, r, by simp [hc, hx, hb.1, hb.2], hb⟩

/-- C1 witness: both policies at a concrete encounter, the spec-modelled
configuration, and an always-failing endpoint. -/
theorem c1_priority_always_valid_witness :
    mtsConfigValid specMtsConfig ∧
    ((∃ p r2, manchesterAssign specMtsConfig pmSub encBlank [] = some (p, r2) ∧ 1 ≤ p ∧ p ≤ 5) ∧
     (∃ p r2, ollamaAssign defaultAgent specMtsConfig pmSub pintNone httpAlways500 encBlank []
        = some (p, r2) ∧ 1 ≤ p ∧ p ≤ 5)) :=
  ⟨by decide,
   c1_priority_always_valid specMtsConfig (by decide) pmSub pintNone defaultAgent
     httpAlways500 encBlank []⟩

/-- C3: when every attempt against the remote endpoint fails (for instance an
always-HTTP-500 server) and mock mode is off, OllamaTriageAgent.assign_priority
returns exactly what ManchesterTriageSystem.assign_priority returns for the
same encounter and the same RNG state: the retry loop consumes no randomness,
and after the budget is exhausted the fallback runs on the unchanged state. -/
theorem c3_fallback_equals_manchester (a : OllamaAgent) (hm : a.mock_mode = none)
    (cfg : MtsConfig) (pm : String → String → ℚ) (pint : String → Option Int)
    (http : ℕ → CallAttempt) (hfail : ∀ i, http i = CallAttempt.fail)
    (e : Encounter) (r : Rng) :
    ollamaAssign a cfg pm pint http e r = manchesterAssign cfg pm e r := by
  have hc : callOllama a http = none := by
    unfold callOllama
    rw [hm]
    refine List.findSome?_eq_none_iff.mpr ?_
    intro i _
    rw [hfail i]
  unfold ollamaAssign
  rw [hc]

/-- C3 witness: the always-failing endpoint on a concrete encounter and seed
stream. -/
theorem c3_fallback_equals_manchester_witness :
    defaultAgent.mock_mode = none ∧ (∀ i, httpAlways500 i = CallAttempt.fail) ∧
    ollamaAssign defaultAgent specMtsConfig pmSub pintNone httpAlways500
        encCardiacArrest [7] =
      manchesterAssign specMtsConfig pmSub encCardiacArrest [7] :=
  ⟨rfl, fun _ => rfl,
   c3_fallback_equals_manchester defaultAgent rfl specMtsConfig pmSub pintNone
     httpAlways500 (fun _ => rfl) encCardiacArrest [7]⟩

theorem qfloor_eq (x : ℚ) : qfloor x = ⌊x⌋ := by
  rw [Rat.floor_def]
  exact Int.fdiv_eq_ediv _ (by positivity)

theorem qceil_eq (x : ℚ) : qceil x = ⌈x⌉ := by
  unfold qceil
  rw [qfloor_eq, Int.floor_neg, neg_neg]

/-- C4: for a nonempty encounter list and at least one server, the horizon the
run actually uses is exactly the maximum of the supplied horizon and the
conservative bound last arrival plus ceil(n over s) times the 480-minute
per-service cap plus 60 minutes of slack; in particular the run is never cut
before either the supplied horizon or the conservative bound, and
run_simulation runs the event loop at exactly this horizon. -/
theorem c4_horizon_formula (es : List Encounter) (_hne : es ≠ []) (servers : ℕ)
    (hs : 1 ≤ servers) (h : ℚ) (pol : TriagePolicy) (r : Rng) :
    safeHorizon es servers h
      = max h (lastArrival es +
          ((⌈(es.length : ℚ) / (servers : ℚ)⌉ : ℤ) : ℚ) * 480 + 60) ∧
    h ≤ safeHorizon es servers h ∧
    lastArrival es + ((⌈(es.length : ℚ) / (servers : ℚ)⌉ : ℤ) : ℚ) * 480 + 60
      ≤ safeHorizon es servers h ∧
    runSimulation pol servers es h r
      = simLoop pol servers (safeHorizon es servers h) (3 * es.length + 1)
          (initState es r) := by
  have hmax : (max servers 1) = servers := Nat.max_eq_left hs
  have hform : safeHorizon es servers h
      = max h (lastArrival es +
          ((⌈(es.length : ℚ) / (servers : ℚ)⌉ : ℤ) : ℚ) * 480 + 60) := by
    unfold safeHorizon
    dsimp only
    rw [hmax, qceil_eq]
  refine ⟨hform, ?_, ?_, rfl⟩
  · rw [hform]; exact le_max_left _ _
  · rw [hform]; exact le_max_right _ _

/-- C4 witness: two encounters, one server, supplied horizon zero. -/
theorem c4_horizon_formula_witness :
    ([encBlank, encCardiacArrest] ≠ ([] : List Encounter)) ∧ 1 ≤ 1 ∧
    (safeHorizon [encBlank, encCardiacArrest] 1 0
        = max 0 (lastArrival [encBlank, encCardiacArrest] +
            ((⌈(([encBlank, encCardiacArrest].length : ℚ)) / ((1 : ℕ) : ℚ)⌉ : ℤ) : ℚ) * 480 + 60) ∧
      (0 : ℚ) ≤ safeHorizon [encBlank, encCardiacArrest] 1 0 ∧
      lastArrival [encBlank, encCardiacArrest] +
          ((⌈(([encBlank, encCardiacArrest].length : ℚ)) / ((1 : ℕ) : ℚ)⌉ : ℤ) : ℚ) * 480 + 60
        ≤ safeHorizon [encBlank, encCardiacArrest] 1 0 ∧
      runSimulation (manchesterPolicy specMtsConfig pmSub) 1 [encBlank, encCardiacArrest] 0 []
        = simLoop (manchesterPolicy specMtsConfig pmSub) 1
            (safeHorizon [encBlank, encCardiacArrest] 1 0)
            (3 * [encBlank, encCardiacArrest].length + 1)
            (initState [encBlank, encCardiacArrest] [])) :=
  ⟨by decide, by decide,
   c4_horizon_formula [encBlank, encCardiacArrest] (by decide) 1 (by decide) 0
     (manchesterPolicy specMtsConfig pmSub) []⟩


set_option maxRecDepth 100000

/-- C5 counterexample: one server, two simultaneous arrivals, the priority-4
patient registered first.  The priority-4 patient seizes the idle server at
its request instant (simpy appends to the user list synchronously inside
request), so it is served first with zero wait while the priority-1 patient
waits out its 20-minute service: the claimed ordering does not hold
regardless of enqueue order. -/
theorem c5_counterexample :
    (runSimulation (manchesterPolicy specMtsConfig pmSub) 1 [encBlank, encCardiacArrest] 0
        []).events.map (fun ev => (ev.patient_id, ev.priority, ev.wait_min))
      = [("B", 4, 0), ("A", 1, 20)] ∧
    ¬ ∃ ev ∈ (runSimulation (manchesterPolicy specMtsConfig pmSub) 1
        [encBlank, encCardiacArrest] 0 []).events,
        ev.priority = 1 ∧ ev.wait_min = 0 := by
  constructor
  · decide
  · decide

/-- C5 amended: among tasks already waiting when a server frees, the lowest
numeric priority is served next with ties broken by arrival order; but a task
that requests while a server is idle seizes it immediately, so with one
server and two simultaneous arrivals of priorities 1 and 4 the priority-1
patient is served first with zero wait exactly when it is enqueued first,
and when the priority-4 patient is enqueued first it is served first and the
priority-1 patient waits out its service. -/
theorem c5_amended :
    (runSimulation (manchesterPolicy specMtsConfig pmSub) 1 [encCardiacArrest, encBlank] 0
        []).events.map (fun ev => (ev.patient_id, ev.priority, ev.wait_min))
      = [("A", 1, 0), ("B", 4, 90)] ∧
    (runSimulation (manchesterPolicy specMtsConfig pmSub) 1 [encBlank, encCardiacArrest] 0
        []).events.map (fun ev => (ev.patient_id, ev.priority, ev.wait_min))
      = [("B", 4, 0), ("A", 1, 20)] := by
  constructor
  · decide
  · decide

theorem lookup_map_self {keys : List Int} {f : Int → PriorityStats} {p : Int}
    {st : PriorityStats}
    (h : (keys.map (fun q => (q, f q))).lookup p = some st) : st = f p := by
  induction keys with
  | nil => simp at h
  | cons k ks ih =>
    simp only [List.map_cons, List.lookup] at h
    cases hbeq : p == k with
    | true =>
      rw [hbeq] at h
      simp only [Option.some.injEq] at h
      have hpk : p = k := eq_of_beq hbeq
      subst hpk
      exact h.symm
    | false =>
      rw [hbeq] at h
      exact ih h

theorem lookup_map_isSome {keys : List Int} {f : Int → PriorityStats} {p : Int} :
    ((keys.map (fun q => (q, f q))).lookup p).isSome ↔ p ∈ keys := by
  induction keys with
  | nil => simp
  | cons k ks ih =>
    simp only [List.map_cons, List.lookup]
    cases hbeq : p == k with
    | true =>
      have hpk : p = k := eq_of_beq hbeq
      subst hpk
      simp
    | false =>
      have hpk : ¬ p = k := by
        intro hh
        subst hh
        simp at hbeq
      simp [ih, hpk]

theorem mem_foldr_insertUniq : ∀ {ps : List Int} {p : Int},
    p ∈ ps.foldr insertUniq [] ↔ p ∈ ps := by
  intro ps
  induction ps with
  | nil => intro p; simp
  | cons q qs ih =>
    intro p
    simp only [List.foldr_cons, List.mem_cons]
    rw [← ih]
    generalize qs.foldr insertUniq [] = l
    induction l with
    | nil => simp [insertUniq]
    | cons z zs ihz =>
      unfold insertUniq
      split_ifs with h1 h2
      · subst h1
        simp only [List.mem_cons]
        tauto
      · simp only [List.mem_cons]
      · simp only [List.mem_cons] at ihz ⊢
        tauto

/-- C6: the per-priority breakdown counts an event as a breach exactly when
its wait strictly exceeds its max wait, reports the group size as patients,
and reports breach_rate_percent as breaches over patients times 100 rounded
to one decimal; on the example group of priority-2 events with waits 5, 15, 8
against a 10-minute target this gives 1 breach out of 3 and a rate of 33.3. -/
theorem c6_breach_rate (cfg : MtsConfig) (events : List CompletionEvent)
    (hne : events ≠ []) (p : Int) (st : PriorityStats)
    (hlk : (aggregatePriorityBreakdown cfg events).lookup p = some st) :
    st.breaches = (events.filter
        (fun ev => decide (ev.priority = p ∧ ev.max_wait_min < ev.wait_min))).length ∧
    st.patients = (events.filter (fun ev => decide (ev.priority = p))).length ∧
    st.breach_rate_percent = round1 ((st.breaches : ℚ) / (st.patients : ℚ) * 100) ∧
    (priorityStatsFor specMtsConfig c6Events 2).breaches = 1 ∧
    (priorityStatsFor specMtsConfig c6Events 2).patients = 3 ∧
    (priorityStatsFor specMtsConfig c6Events 2).breach_rate_percent = 333/10 := by
  have hst : st = priorityStatsFor cfg events p := by
    unfold aggregatePriorityBreakdown at hlk
    rw [if_neg hne] at hlk
    exact lookup_map_self hlk
  subst hst
  refine ⟨?_, rfl, rfl, by decide, by decide, by decide⟩
  show ((events.filter (fun ev => decide (ev.priority = p))).filter eventBreached).length = _
  rw [List.filter_filter]
  congr 1
  apply List.filter_congr
  intro ev _
  unfold eventBreached
  by_cases h1 : ev.priority = p <;> by_cases h2 : ev.max_wait_min < ev.wait_min <;>
    simp [h1, h2]

/-- C6 witness: the theorem applied to the example event list at priority 2. -/
theorem c6_breach_rate_witness :
    c6Events ≠ [] ∧
    (aggregatePriorityBreakdown specMtsConfig c6Events).lookup 2
      = some (priorityStatsFor specMtsConfig c6Events 2) ∧
    ((priorityStatsFor specMtsConfig c6Events 2).breaches = (c6Events.filter
        (fun ev => decide (ev.priority = 2 ∧ ev.max_wait_min < ev.wait_min))).length ∧
     (priorityStatsFor specMtsConfig c6Events 2).patients
        = (c6Events.filter (fun ev => decide (ev.priority = 2))).length ∧
     (priorityStatsFor specMtsConfig c6Events 2).breach_rate_percent
        = round1 (((priorityStatsFor specMtsConfig c6Events 2).breaches : ℚ)
            / ((priorityStatsFor specMtsConfig c6Events 2).patients : ℚ) * 100) ∧
     (priorityStatsFor specMtsConfig c6Events 2).breaches = 1 ∧
     (priorityStatsFor specMtsConfig c6Events 2).patients = 3 ∧
     (priorityStatsFor specMtsConfig c6Events 2).breach_rate_percent = 333/10) :=
  ⟨by decide, by decide,
   c6_breach_rate specMtsConfig c6Events (by decide) 2
     (priorityStatsFor specMtsConfig c6Events 2) (by decide)⟩

/-- C7 counterexample: on waits 1..10 the pipeline the code executes (binary64
linear interpolation of the 95th percentile followed by numpy round to one
decimal) reports 9.5, not the claimed 9.6: the interpolated value in doubles
is slightly below 9.55 and rounds down. -/
theorem c7_counterexample :
    dRound1 (dQuantile95 c7Waits) = 19/2 ∧ dRound1 (dQuantile95 c7Waits) ≠ 48/5 := by
  constructor
  · decide
  · decide

/-- C7 amended: for the ten waits 1..10 in one priority group the reported
95th-percentile wait is 9.5, because the double-precision evaluation of the
linear interpolation yields a value just below 9.55 which numpy rounding
takes to 9.5; under exact rational arithmetic the same interpolation gives
9.55, which ideal one-decimal rounding would take to 9.6. -/
theorem c7_amended :
    dRound1 (dQuantile95 c7Waits) = 19/2 ∧
    quantile95 c7Waits = 191/20 ∧
    round1 (quantile95 c7Waits) = 48/5 := by
  refine ⟨by decide, by decide, by decide⟩

/-- C8: on the empty event list the system metrics are the all-zero record
(no exception, no undefined value) and the priority breakdown is empty; and
for every event list a priority level appears in the breakdown exactly when
some event carries it, so levels with zero events are omitted. -/
theorem c8_empty_and_omitted :
    computeSystemMetrics [] = ⟨0, 0, 0, 0⟩ ∧
    (∀ cfg : MtsConfig, aggregatePriorityBreakdown cfg [] = []) ∧
    ∀ (cfg : MtsConfig) (events : List CompletionEvent) (p : Int),
      ((aggregatePriorityBreakdown cfg events).lookup p).isSome ↔
        ∃ ev ∈ events, ev.priority = p := by
  refine ⟨rfl, fun _ => rfl, ?_⟩
  intro cfg events p
  by_cases hne : events = []
  · subst hne
    simp [aggregatePriorityBreakdown]
  · unfold aggregatePriorityBreakdown
    rw [if_neg hne, lookup_map_isSome]
    unfold groupKeys
    rw [mem_foldr_insertUniq, List.mem_map]

/-- C10: ManchesterTriageSystem.estimate_service_min never returns None: for
every encounter and every integer priority it returns the positive value
base time (90, 60, 40, 20, 10 minutes for levels 1 to 5, 20 otherwise)
scaled by the age factor (1.2 below 16, 1.1 above 65); consequently the
engine service-time selection always takes this estimate and never the
encounter-supplied service_min. -/
theorem c10_estimate_always_used (cfg : MtsConfig) (pm : String → String → ℚ)
    (e : Encounter) (p : Int) :
    manchesterEstimate e p = some (mtsBaseTime p * mtsAgeFactor e) ∧
    0 < mtsBaseTime p * mtsAgeFactor e ∧
    chosenServiceMin (manchesterPolicy cfg pm) e p = mtsBaseTime p * mtsAgeFactor e := by
  refine ⟨rfl, ?_, rfl⟩
  have h1 : 0 < mtsBaseTime p := by
    unfold mtsBaseTime
    split_ifs <;> norm_num
  have h2 : 0 < mtsAgeFactor e := by
    unfold mtsAgeFactor
    dsimp only
    split_ifs <;> norm_num
  exact mul_pos h1 h2


/-! ## Invariants of the engine loop

The lemmas below establish that with the rule-based policy every registered
patient starts service within ceil(n over s) windows of 480 minutes after the
last arrival, so every completion falls strictly below the conservative
horizon and the loop drains completely. -/

/-- The arrival-order relation maintained on the pending list. -/
def PendR (a b : PendingPatient) : Prop := a.enc.arrival_min ≤ b.enc.arrival_min

theorem mem_insertPend {x y : PendingPatient} {l : List PendingPatient} :
    x ∈ insertPend y l ↔ x = y ∨ x ∈ l := by
  induction l with
  | nil => simp [insertPend]
  | cons z zs ih =>
    unfold insertPend
    split_ifs
    · simp only [List.mem_cons]
    · simp only [List.mem_cons] at ih ⊢
      tauto

theorem pairwise_insertPend {y : PendingPatient} {l : List PendingPatient}
    (h : l.Pairwise PendR) : (insertPend y l).Pairwise PendR := by
  induction l with
  | nil => simp [insertPend, List.pairwise_cons]
  | cons z zs ih =>
    unfold insertPend
    rw [List.pairwise_cons] at h
    split_ifs with hle
    · rw [List.pairwise_cons]
      constructor
      · intro b hb
        rcases List.mem_cons.mp hb with hb | hb
        · subst hb
          unfold pendLE at hle
          simp only [decide_eq_true_eq] at hle
          unfold PendR
          rcases hle with h1 | h1
          · exact le_of_lt h1
          · exact le_of_eq h1.1
        · have hyz : PendR y z := by
            unfold pendLE at hle
            simp only [decide_eq_true_eq] at hle
            unfold PendR
            rcases hle with h1 | h1
            · exact le_of_lt h1
            · exact le_of_eq h1.1
          exact le_trans hyz (h.1 b hb)
      · rw [List.pairwise_cons]
        exact h
    · rw [List.pairwise_cons]
      constructor
      · intro b hb
        rcases mem_insertPend.mp hb with hb | hb
        · subst hb
          unfold pendLE at hle
          simp only [decide_eq_true_eq, not_or, not_and, not_lt] at hle
          exact hle.1
        · exact h.1 b hb
      · exact ih h.2

theorem length_insertPend (y : PendingPatient) (l : List PendingPatient) :
    (insertPend y l).length = l.length + 1 := by
  induction l with
  | nil => simp [insertPend]
  | cons z zs ih =>
    unfold insertPend
    split_ifs <;> simp [ih]

theorem mem_sortPend {x : PendingPatient} {l : List PendingPatient} :
    x ∈ sortPend l ↔ x ∈ l := by
  unfold sortPend
  induction l with
  | nil => simp
  | cons y ys ih =>
    simp only [List.foldr_cons, List.mem_cons]
    rw [mem_insertPend, ih]

theorem sorted_sortPend (l : List PendingPatient) : (sortPend l).Pairwise PendR := by
  unfold sortPend
  induction l with
  | nil => simp
  | cons y ys ih =>
    exact pairwise_insertPend ih

theorem length_sortPend (l : List PendingPatient) : (sortPend l).length = l.length := by
  unfold sortPend
  induction l with
  | nil => simp
  | cons y ys ih => simp [length_insertPend, ih]

theorem mem_insertQueue {x y : QueuedPatient} {l : List QueuedPatient} :
    x ∈ insertQueue y l ↔ x = y ∨ x ∈ l := by
  induction l with
  | nil => simp [insertQueue]
  | cons z zs ih =>
    unfold insertQueue
    split_ifs
    · simp only [List.mem_cons]
    · simp only [List.mem_cons] at ih ⊢
      tauto

theorem length_insertQueue (y : QueuedPatient) (l : List QueuedPatient) :
    (insertQueue y l).length = l.length + 1 := by
  induction l with
  | nil => simp [insertQueue]
  | cons z zs ih =>
    unfold insertQueue
    split_ifs <;> simp [ih]

theorem popMinFinish_eq_none {l : List RunningPatient} :
    popMinFinish l = none ↔ l = [] := by
  cases l with
  | nil => simp [popMinFinish]
  | cons r rs =>
    simp only [popMinFinish]
    constructor
    · intro h
      cases hp : popMinFinish rs with
      | none => rw [hp] at h; simp at h
      | some m =>
        rw [hp] at h
        obtain ⟨m1, m2⟩ := m
        dsimp only at h
        split_ifs at h
    · intro h; simp at h

theorem popMinFinish_perm {l : List RunningPatient} {r : RunningPatient}
    {rest : List RunningPatient} (h : popMinFinish l = some (r, rest)) :
    l.Perm (r :: rest) := by
  induction l generalizing r rest with
  | nil => simp [popMinFinish] at h
  | cons x xs ih =>
    simp only [popMinFinish] at h
    cases hp : popMinFinish xs with
    | none =>
      rw [hp] at h
      simp only [Option.some.injEq, Prod.mk.injEq] at h
      have hxs : xs = [] := popMinFinish_eq_none.mp hp
      subst hxs
      rw [← h.1, ← h.2]
    | some m =>
      obtain ⟨m1, m2⟩ := m
      rw [hp] at h
      dsimp only at h
      split_ifs at h with hle
      · simp only [Option.some.injEq, Prod.mk.injEq] at h
        rw [← h.1, ← h.2]
      · simp only [Option.some.injEq, Prod.mk.injEq] at h
        have hperm := ih hp
        have hfin : (x :: xs).Perm (m1 :: x :: m2) :=
          (hperm.cons x).trans (List.Perm.swap m1 x m2)
        rw [h.1, h.2] at hfin
        exact hfin

theorem popMinFinish_min {l : List RunningPatient} {r : RunningPatient}
    {rest : List RunningPatient} (h : popMinFinish l = some (r, rest)) :
    ∀ x ∈ l, r.finish ≤ x.finish := by
  induction l generalizing r rest with
  | nil => simp [popMinFinish] at h
  | cons y ys ih =>
    simp only [popMinFinish] at h
    cases hp : popMinFinish ys with
    | none =>
      rw [hp] at h
      simp only [Option.some.injEq, Prod.mk.injEq] at h
      have hys : ys = [] := popMinFinish_eq_none.mp hp
      subst hys
      intro x hx
      rcases List.mem_cons.mp hx with hx | hx
      · subst hx; rw [h.1]
      · simp at hx
    | some m =>
      obtain ⟨m1, m2⟩ := m
      rw [hp] at h
      dsimp only at h
      split_ifs at h with hle
      · simp only [Option.some.injEq, Prod.mk.injEq] at h
        intro x hx
        rcases List.mem_cons.mp hx with hx | hx
        · subst hx; rw [← h.1]
        · rw [← h.1]
          exact le_trans hle (ih hp x hx)
      · simp only [Option.some.injEq, Prod.mk.injEq] at h
        intro x hx
        rcases List.mem_cons.mp hx with hx | hx
        · subst hx
          rw [← h.1]
          exact le_of_not_le hle
        · rw [← h.1]
          exact ih hp x hx

theorem le_foldl_max_init : ∀ (l : List ℚ) (a : ℚ), a ≤ l.foldl max a := by
  intro l
  induction l with
  | nil => intro a; simp
  | cons b t ih =>
    intro a
    simp only [List.foldl_cons]
    exact le_trans (le_max_left a b) (ih (max a b))

theorem le_foldl_max_mem : ∀ (l : List ℚ) (a x : ℚ), x ∈ l → x ≤ l.foldl max a := by
  intro l
  induction l with
  | nil => intro a x hx; simp at hx
  | cons b t ih =>
    intro a x hx
    simp only [List.foldl_cons]
    rcases List.mem_cons.mp hx with hx | hx
    · subst hx
      exact le_trans (le_max_right a x) (le_foldl_max_init t _)
    · exact ih (max a b) x hx

theorem le_lastArrival {es : List Encounter} {e : Encounter} (he : e ∈ es) :
    e.arrival_min ≤ lastArrival es := by
  unfold lastArrival
  cases hm : es.map (fun x => x.arrival_min) with
  | nil =>
    exfalso
    have : e.arrival_min ∈ es.map (fun x => x.arrival_min) := List.mem_map_of_mem _ he
    rw [hm] at this
    simp at this
  | cons a rest =>
    have hmem : e.arrival_min ∈ a :: rest := by
      rw [← hm]
      exact List.mem_map_of_mem _ he
    rcases List.mem_cons.mp hmem with hx | hx
    · rw [hx]
      exact le_foldl_max_init rest a
    · exact le_foldl_max_mem rest a _ hx

theorem lastArrival_nonneg {es : List Encounter}
    (harr : ∀ e ∈ es, 0 ≤ e.arrival_min) : 0 ≤ lastArrival es := by
  cases es with
  | nil => simp [lastArrival]
  | cons e rest =>
    have := harr e (List.mem_cons_self _ _)
    exact le_trans this (le_lastArrival (List.mem_cons_self _ _))

/-- The policy facts the completion argument needs: assignment always
succeeds, metadata exists for every assigned level, and the selected service
time is positive and at most the 480-minute cap of the horizon formula. -/
def PolicyGood (pol : TriagePolicy) : Prop :=
  ∀ e r, ∃ p r2, pol.assignPriority e r = some (p, r2) ∧
    (pol.maxWaitOf p).isSome ∧
    0 < chosenServiceMin pol e p ∧ chosenServiceMin pol e p ≤ 480

theorem mtsBaseTime_bounds (p : Int) : 0 < mtsBaseTime p ∧ mtsBaseTime p ≤ 90 := by
  unfold mtsBaseTime
  split_ifs <;> norm_num

theorem mtsAgeFactor_bounds (e : Encounter) :
    0 < mtsAgeFactor e ∧ mtsAgeFactor e ≤ 6/5 := by
  unfold mtsAgeFactor
  dsimp only
  split_ifs <;> norm_num

/-- The rule-based policy satisfies the policy facts under a valid
configuration: its service estimates lie in (0, 108], well below the cap. -/
theorem manchesterPolicy_good (cfg : MtsConfig) (hv : mtsConfigValid cfg)
    (pm : String → String → ℚ) : PolicyGood (manchesterPolicy cfg pm) := by
  intro e r
  obtain ⟨p, r2, hassign, hp1, hp5⟩ := manchesterAssign_valid cfg hv pm e r
  refine ⟨p, r2, hassign, ?_, ?_, ?_⟩
  · show ((getPriorityInfo cfg p).map (fun i => i.max_wait_min)).isSome
    have h15 : p ∈ ([1, 2, 3, 4, 5] : List Int) := by
      interval_cases p <;> simp
    have := hv.2.2.2 p h15
    simpa [getPriorityInfo] using this
  · show 0 < mtsBaseTime p * mtsAgeFactor e
    exact mul_pos (mtsBaseTime_bounds p).1 (mtsAgeFactor_bounds e).1
  · show mtsBaseTime p * mtsAgeFactor e ≤ 480
    have h1 := mtsBaseTime_bounds p
    have h2 := mtsAgeFactor_bounds e
    nlinarith [h1.1, h1.2, h2.1, h2.2]

/-- The loop invariant tying a reachable engine state to the batch-scheduling
bound: the clocking facts of each pool, the bookkeeping equalities, the
greedy-scheduling witnesses, and the counting form of the statement that the
k-th service start happens within floor((k-1)/s) cap-windows of the last
arrival. -/
structure SimInv (pol : TriagePolicy) (s : ℕ) (es : List Encounter)
    (st : SimState) : Prop where
  noerr : st.error = false
  pend_mem : ∀ pp ∈ st.pending, pp.enc ∈ es
  pend_sorted : st.pending.Pairwise PendR
  pend_time : ∀ pp ∈ st.pending, st.time ≤ pp.enc.arrival_min
  q_time : ∀ q ∈ st.queue, q.arrival ≤ st.time
  q_arrL : ∀ q ∈ st.queue, q.arrival ≤ lastArrival es
  q_svc : ∀ q ∈ st.queue, 0 < q.service ∧ q.service ≤ 480
  q_mw : ∀ q ∈ st.queue, pol.maxWaitOf q.priority = some q.maxWait
  r_start : ∀ x ∈ st.inService, x.q.arrival ≤ x.start ∧ x.start ≤ st.time
  r_fin : ∀ x ∈ st.inService, st.time ≤ x.finish
  r_svc : ∀ x ∈ st.inService, 0 < x.q.service ∧ x.q.service ≤ 480
  r_mw : ∀ x ∈ st.inService, pol.maxWaitOf x.q.priority = some x.q.maxWait
  r_len : st.inService.length ≤ s
  ev_wait : ∀ ev ∈ st.events, 0 ≤ ev.wait_min
  ev_svc : ∀ ev ∈ st.events, 0 < ev.service_min ∧ ev.service_min ≤ 480
  ev_mw : ∀ ev ∈ st.events, pol.maxWaitOf ev.priority = some ev.max_wait_min
  ev_fin : ∀ ev ∈ st.events, evFinish ev ≤ st.time
  comp_ev : st.completed = st.events.length
  total : st.pending.length + st.queue.length + st.inService.length
      + st.events.length = es.length
  greedy : st.queue ≠ [] → st.inService.length < s →
    (∀ q ∈ st.queue, q.arrival = st.time) ∨ ∃ ev ∈ st.events, evFinish ev = st.time
  late : lastArrival es < st.time → st.queue = [] ∨ s ≤ st.inService.length + 1
  batch : ∀ j : ℕ, min (startsOf st).length ((j + 1) * s) ≤
    (startsOf st).countP (fun u => decide (u ≤ lastArrival es + (j : ℚ) * 480))


theorem countP_lt_length {α : Type} {p : α → Bool} {l : List α} {x : α}
    (hx : x ∈ l) (hpx : p x = false) : l.countP p < l.length := by
  induction l with
  | nil => simp at hx
  | cons y ys ih =>
    rw [List.countP_cons, List.length_cons]
    rcases List.mem_cons.mp hx with hx1 | hx1
    · subst hx1
      rw [hpx]
      have hc : ys.countP p ≤ ys.length := List.countP_le_length p
      simp only [Bool.false_eq_true, if_false]
      omega
    · have h1 := ih hx1
      have h2 : (if p y = true then 1 else 0) ≤ 1 := by split_ifs <;> omega
      omega

/-- The key greedy bound: whenever a free server is about to be seized by a
waiting patient, the current instant lies within floor(k over s) cap-windows
of the last arrival, where k counts the services already started.  After the
last arrival the seizure is enabled by a completion at this very instant, the
remaining s-1 services all run past now and so started within the last
cap-window, and the batch invariant then pins the count. -/
theorem assign_time_bound {pol : TriagePolicy} {s : ℕ} {es : List Encounter}
    {st : SimState} (inv : SimInv pol s es st)
    (hqne : st.queue ≠ []) (hlen : st.inService.length < s) :
    st.time ≤ lastArrival es + (((startsOf st).length / s : ℕ) : ℚ) * 480 := by
  by_cases hL : st.time ≤ lastArrival es
  · have hpos : (0:ℚ) ≤ (((startsOf st).length / s : ℕ) : ℚ) * 480 := by positivity
    linarith
  · push_neg at hL
    have hlate := inv.late hL
    have hlen1 : s ≤ st.inService.length + 1 := by
      rcases hlate with h | h
      · exact absurd h hqne
      · exact h
    rcases inv.greedy hqne hlen with hall | ⟨w, hw, hwfin⟩
    · exfalso
      obtain ⟨q0, hq0⟩ := List.exists_mem_of_ne_nil st.queue hqne
      have h1 := hall q0 hq0
      have h2 := inv.q_arrL q0 hq0
      rw [h1] at h2
      exact absurd h2 (not_le.mpr hL)
    · by_contra hcon
      push_neg at hcon
      have hk1 : (startsOf st).length = st.events.length + st.inService.length := by
        simp [startsOf]
      have hev1 : 1 ≤ st.events.length := List.length_pos_of_mem hw
      have hlenEq : st.inService.length + 1 = s := by omega
      have hks : s ≤ (startsOf st).length := by omega
      have hspos : 0 < s := by omega
      have hj1 : 1 ≤ (startsOf st).length / s := (Nat.one_le_div_iff hspos).mpr hks
      have hbatch := inv.batch ((startsOf st).length / s - 1)
      have hj0s : ((startsOf st).length / s - 1 + 1) * s = ((startsOf st).length / s) * s := by
        congr 1
        omega
      have hmin : min (startsOf st).length (((startsOf st).length / s - 1 + 1) * s)
          = ((startsOf st).length / s) * s := by
        rw [hj0s]
        exact min_eq_right (Nat.div_mul_le_self _ s)
      rw [hmin, Nat.mul_comm] at hbatch
      have hdm := Nat.div_add_mod (startsOf st).length s
      have hmod : (startsOf st).length % s < s := Nat.mod_lt _ hspos
      have hge : (startsOf st).length - s + 1 ≤ s * ((startsOf st).length / s) := by
        omega
      have hcast : (((startsOf st).length / s - 1 : ℕ) : ℚ)
          = (((startsOf st).length / s : ℕ) : ℚ) - 1 := by
        rw [Nat.cast_sub hj1]
        simp
      have hCt : lastArrival es + (((startsOf st).length / s - 1 : ℕ) : ℚ) * 480
          < st.time - 480 := by
        rw [hcast]
        have := hcon
        linarith
      have hzero : (st.inService.map (fun x => x.start)).countP
          (fun u => decide (u ≤ lastArrival es
            + (((startsOf st).length / s - 1 : ℕ) : ℚ) * 480)) = 0 := by
        rw [List.countP_eq_zero]
        intro a ha
        obtain ⟨x, hx, rfl⟩ := List.mem_map.mp ha
        simp only [decide_eq_true_eq, not_le]
        have hf := inv.r_fin x hx
        have hsv := (inv.r_svc x hx).2
        unfold RunningPatient.finish at hf
        linarith
      have hwlt : (st.events.map evStart).countP
          (fun u => decide (u ≤ lastArrival es
            + (((startsOf st).length / s - 1 : ℕ) : ℚ) * 480))
          < (st.events.map evStart).length := by
        apply countP_lt_length (List.mem_map_of_mem evStart hw)
        simp only [decide_eq_false_iff_not, not_le]
        have hsv := (inv.ev_svc w hw).2
        have hws : evStart w = st.time - w.service_min := by
          unfold evFinish at hwfin
          unfold evStart
          linarith
        rw [hws]
        linarith
      have hsplit : (startsOf st).countP
          (fun u => decide (u ≤ lastArrival es
            + (((startsOf st).length / s - 1 : ℕ) : ℚ) * 480))
          = (st.events.map evStart).countP
              (fun u => decide (u ≤ lastArrival es
                + (((startsOf st).length / s - 1 : ℕ) : ℚ) * 480))
            + (st.inService.map (fun x => x.start)).countP
              (fun u => decide (u ≤ lastArrival es
                + (((startsOf st).length / s - 1 : ℕ) : ℚ) * 480)) := by
        unfold startsOf
        rw [List.countP_append]
      rw [hsplit, hzero] at hbatch
      rw [List.length_map] at hwlt
      omega

/-- Seizing a free server preserves the loop invariant: the new service start
is stamped with the current instant, which the greedy time bound places inside
the current cap-window, so the batch count absorbs it. -/
theorem assignStep_inv {pol : TriagePolicy} {s : ℕ} {es : List Encounter}
    {st : SimState} {q : QueuedPatient} {rest : List QueuedPatient}
    (inv : SimInv pol s es st) (hq : st.queue = q :: rest)
    (hlen : st.inService.length < s) :
    SimInv pol s es (assignStep st q rest) := by
  have hqm : q ∈ st.queue := by rw [hq]; exact List.mem_cons_self _ _
  have hqne : st.queue ≠ [] := by rw [hq]; exact List.cons_ne_nil _ _
  have htb := assign_time_bound inv hqne hlen
  have hS : startsOf (assignStep st q rest) = startsOf st ++ [st.time] := by
    simp [startsOf, assignStep]
  refine
    { noerr := inv.noerr
      pend_mem := inv.pend_mem
      pend_sorted := inv.pend_sorted
      pend_time := inv.pend_time
      q_time := ?_
      q_arrL := ?_
      q_svc := ?_
      q_mw := ?_
      r_start := ?_
      r_fin := ?_
      r_svc := ?_
      r_mw := ?_
      r_len := ?_
      ev_wait := inv.ev_wait
      ev_svc := inv.ev_svc
      ev_mw := inv.ev_mw
      ev_fin := inv.ev_fin
      comp_ev := inv.comp_ev
      total := ?_
      greedy := ?_
      late := ?_
      batch := ?_ }
  · intro q2 h2
    exact inv.q_time q2 (by rw [hq]; exact List.mem_cons_of_mem _ h2)
  · intro q2 h2
    exact inv.q_arrL q2 (by rw [hq]; exact List.mem_cons_of_mem _ h2)
  · intro q2 h2
    exact inv.q_svc q2 (by rw [hq]; exact List.mem_cons_of_mem _ h2)
  · intro q2 h2
    exact inv.q_mw q2 (by rw [hq]; exact List.mem_cons_of_mem _ h2)
  · intro x hx
    rcases List.mem_append.mp hx with hx | hx
    · exact (inv.r_start x hx)
    · rw [List.mem_singleton] at hx
      subst hx
      exact ⟨inv.q_time q hqm, le_refl _⟩
  · intro x hx
    rcases List.mem_append.mp hx with hx | hx
    · exact inv.r_fin x hx
    · rw [List.mem_singleton] at hx
      subst hx
      show st.time ≤ RunningPatient.finish _
      unfold RunningPatient.finish
      have := (inv.q_svc q hqm).1
      dsimp only
      linarith
  · intro x hx
    rcases List.mem_append.mp hx with hx | hx
    · exact inv.r_svc x hx
    · rw [List.mem_singleton] at hx
      subst hx
      exact inv.q_svc q hqm
  · intro x hx
    rcases List.mem_append.mp hx with hx | hx
    · exact inv.r_mw x hx
    · rw [List.mem_singleton] at hx
      subst hx
      exact inv.q_mw q hqm
  · show (st.inService ++ [_]).length ≤ s
    rw [List.length_append]
    simp only [List.length_singleton]
    omega
  · have ht := inv.total
    rw [hq, List.length_cons] at ht
    show st.pending.length + rest.length + (st.inService ++ [_]).length
        + st.events.length = es.length
    rw [List.length_append, List.length_cons, List.length_nil]
    omega
  · intro _ _
    rcases inv.greedy hqne hlen with hall | hex
    · exact Or.inl fun q2 h2 => hall q2 (by rw [hq]; exact List.mem_cons_of_mem _ h2)
    · exact Or.inr hex
  · intro hL
    rcases inv.late hL with h1 | h1
    · rw [hq] at h1
      exact absurd h1 (List.cons_ne_nil _ _)
    · right
      show s ≤ (st.inService ++ [_]).length + 1
      rw [List.length_append]
      simp only [List.length_singleton]
      omega
  · intro j
    rw [hS, List.length_append, List.countP_append]
    have hb := inv.batch j
    simp only [List.length_singleton]
    by_cases hc : st.time ≤ lastArrival es + (j : ℚ) * 480
    · have h1 : List.countP (fun u => decide (u ≤ lastArrival es + (j : ℚ) * 480))
          [st.time] = 1 := by
        simp [List.countP_cons, hc]
      rw [h1]
      omega
    · push_neg at hc
      have hjlt : (j : ℚ) * 480 < (((startsOf st).length / s : ℕ) : ℚ) * 480 := by
        linarith
      have hjq : (j : ℚ) < (((startsOf st).length / s : ℕ) : ℚ) :=
        (mul_lt_mul_right (by norm_num : (0:ℚ) < 480)).mp hjlt
      have hjn : j < (startsOf st).length / s := by exact_mod_cast hjq
      have h0 : List.countP (fun u => decide (u ≤ lastArrival es + (j : ℚ) * 480))
          [st.time] = 0 := by
        simp [List.countP_cons, not_le.mpr hc]
      rw [h0]
      have h2 : (j + 1) * s ≤ ((startsOf st).length / s) * s :=
        Nat.mul_le_mul_right _ (by omega)
      have h3 : ((startsOf st).length / s) * s ≤ (startsOf st).length :=
        Nat.div_mul_le_self _ _
      omega

/-- An arrival preserves the loop invariant when the policy facts hold and the
engine schedules it correctly: it fires no later than any running completion,
and only when no assignment is possible (empty queue or full pool). -/
theorem arrivalStep_inv {pol : TriagePolicy} {s : ℕ} {es : List Encounter}
    {st : SimState} {pp : PendingPatient} {rest : List PendingPatient}
    (inv : SimInv pol s es st) (hpol : PolicyGood pol)
    (hp : st.pending = pp :: rest)
    (hfin : ∀ x ∈ st.inService, pp.enc.arrival_min ≤ x.finish)
    (hgs : st.queue = [] ∨ s ≤ st.inService.length) :
    SimInv pol s es (arrivalStep pol st pp rest) := by
  obtain ⟨p, r2, hassign, hmwS, hsvc1, hsvc2⟩ := hpol pp.enc st.rng
  obtain ⟨mw, hmw⟩ := Option.isSome_iff_exists.mp hmwS
  have hppm : pp ∈ st.pending := by rw [hp]; exact List.mem_cons_self _ _
  have htt : st.time ≤ pp.enc.arrival_min := inv.pend_time pp hppm
  have hLa : pp.enc.arrival_min ≤ lastArrival es := le_lastArrival (inv.pend_mem pp hppm)
  have hsortcons := inv.pend_sorted
  rw [hp, List.pairwise_cons] at hsortcons
  have hstep : arrivalStep pol st pp rest =
      { st with
        time := pp.enc.arrival_min
        rng := r2
        pending := rest
        queue := insertQueue
          { pid := pp.enc.patient_id, seq := pp.seq, arrival := pp.enc.arrival_min,
            priority := p, service := chosenServiceMin pol pp.enc p, maxWait := mw }
          st.queue } := by
    unfold arrivalStep
    rw [hassign]
    dsimp only
    rw [hmw]
  rw [hstep]
  refine
    { noerr := inv.noerr
      pend_mem := fun pp2 h2 => inv.pend_mem pp2 (by rw [hp]; exact List.mem_cons_of_mem _ h2)
      pend_sorted := hsortcons.2
      pend_time := fun pp2 h2 => hsortcons.1 pp2 h2
      q_time := ?_
      q_arrL := ?_
      q_svc := ?_
      q_mw := ?_
      r_start := fun x hx => ⟨(inv.r_start x hx).1, le_trans (inv.r_start x hx).2 htt⟩
      r_fin := hfin
      r_svc := inv.r_svc
      r_mw := inv.r_mw
      r_len := inv.r_len
      ev_wait := inv.ev_wait
      ev_svc := inv.ev_svc
      ev_mw := inv.ev_mw
      ev_fin := fun ev he => le_trans (inv.ev_fin ev he) htt
      comp_ev := inv.comp_ev
      total := ?_
      greedy := ?_
      late := fun hL => absurd hL (not_lt.mpr hLa)
      batch := fun j => inv.batch j }
  · intro q2 h2
    rcases mem_insertQueue.mp h2 with heq | h2
    · rw [heq]
    · exact le_trans (inv.q_time q2 h2) htt
  · intro q2 h2
    rcases mem_insertQueue.mp h2 with heq | h2
    · rw [heq]
      exact hLa
    · exact inv.q_arrL q2 h2
  · intro q2 h2
    rcases mem_insertQueue.mp h2 with heq | h2
    · rw [heq]
      exact ⟨hsvc1, hsvc2⟩
    · exact inv.q_svc q2 h2
  · intro q2 h2
    rcases mem_insertQueue.mp h2 with heq | h2
    · rw [heq]
      exact hmw
    · exact inv.q_mw q2 h2
  · have ht := inv.total
    rw [hp, List.length_cons] at ht
    show rest.length + (insertQueue _ st.queue).length + st.inService.length
        + st.events.length = es.length
    rw [length_insertQueue]
    omega
  · intro _ hlen2
    rcases hgs with hq0 | hqs
    · left
      intro q2 h2
      rw [hq0] at h2
      rcases mem_insertQueue.mp h2 with heq | h2
      · rw [heq]
      · simp at h2
    · exact absurd hlen2 (not_lt.mpr hqs)

/-- A service completion preserves the loop invariant: the logged event and
the counter move together, the event finishes exactly now, and the start
multiset is unchanged up to permutation, keeping the batch count. -/
theorem completionStep_inv {pol : TriagePolicy} {s : ℕ} {es : List Encounter}
    {st : SimState} {r : RunningPatient} {rrest : List RunningPatient}
    (inv : SimInv pol s es st) (hpop : popMinFinish st.inService = some (r, rrest))
    (hpd : ∀ pp ∈ st.pending, r.finish ≤ pp.enc.arrival_min)
    (hgs : st.queue = [] ∨ s ≤ st.inService.length) :
    SimInv pol s es (completionStep st r rrest) := by
  have hperm := popMinFinish_perm hpop
  have hrm : r ∈ st.inService := hperm.mem_iff.mpr (List.mem_cons_self _ _)
  have hsub : ∀ x ∈ rrest, x ∈ st.inService :=
    fun x hx => hperm.mem_iff.mpr (List.mem_cons_of_mem _ hx)
  have hlen2 : st.inService.length = rrest.length + 1 := by
    rw [hperm.length_eq, List.length_cons]
  have ht : st.time ≤ r.finish := inv.r_fin r hrm
  have hst := inv.r_start r hrm
  have hP : (startsOf (completionStep st r rrest)).Perm (startsOf st) := by
    have hmapP : (st.inService.map (fun x => x.start)).Perm
        (r.start :: rrest.map (fun x => x.start)) := hperm.map _
    have h1 : startsOf (completionStep st r rrest)
        = st.events.map evStart ++ (r.start :: rrest.map (fun x => x.start)) := by
      simp only [startsOf, completionStep, List.map_append, List.map_cons, List.map_nil]
      rw [List.append_assoc]
      congr 1
      rw [List.singleton_append]
      congr 1
      unfold evStart
      dsimp only
      ring
    rw [h1]
    exact List.Perm.append_left _ hmapP.symm
  refine
    { noerr := inv.noerr
      pend_mem := inv.pend_mem
      pend_sorted := inv.pend_sorted
      pend_time := hpd
      q_time := fun q2 h2 => le_trans (inv.q_time q2 h2) ht
      q_arrL := inv.q_arrL
      q_svc := inv.q_svc
      q_mw := inv.q_mw
      r_start := fun x hx => ⟨(inv.r_start x (hsub x hx)).1,
        le_trans (inv.r_start x (hsub x hx)).2 ht⟩
      r_fin := fun x hx => popMinFinish_min hpop x (hsub x hx)
      r_svc := fun x hx => inv.r_svc x (hsub x hx)
      r_mw := fun x hx => inv.r_mw x (hsub x hx)
      r_len := by
        show rrest.length ≤ s
        have := inv.r_len
        omega
      ev_wait := ?_
      ev_svc := ?_
      ev_mw := ?_
      ev_fin := ?_
      comp_ev := by
        have hc := inv.comp_ev
        simp only [completionStep, List.length_append, List.length_cons, List.length_nil]
        omega
      total := by
        have htot := inv.total
        simp only [completionStep, List.length_append, List.length_cons, List.length_nil]
        omega
      greedy := ?_
      late := ?_
      batch := ?_ }
  · intro ev he
    rcases List.mem_append.mp he with he | he
    · exact inv.ev_wait ev he
    · rw [List.mem_singleton] at he
      subst he
      show (0:ℚ) ≤ r.start - r.q.arrival
      have := hst.1
      linarith
  · intro ev he
    rcases List.mem_append.mp he with he | he
    · exact inv.ev_svc ev he
    · rw [List.mem_singleton] at he
      subst he
      exact inv.r_svc r hrm
  · intro ev he
    rcases List.mem_append.mp he with he | he
    · exact inv.ev_mw ev he
    · rw [List.mem_singleton] at he
      subst he
      exact inv.r_mw r hrm
  · intro ev he
    rcases List.mem_append.mp he with he | he
    · exact le_trans (inv.ev_fin ev he) ht
    · rw [List.mem_singleton] at he
      subst he
      show evFinish _ ≤ r.finish
      unfold evFinish RunningPatient.finish
      dsimp only
      linarith
  · intro _ _
    right
    refine ⟨_, List.mem_append_right _ (List.mem_singleton.mpr rfl), ?_⟩
    show evFinish _ = r.finish
    unfold evFinish RunningPatient.finish
    dsimp only
    ring
  · intro _
    rcases hgs with hq0 | hqs
    · exact Or.inl hq0
    · right
      show s ≤ rrest.length + 1
      omega
  · intro j
    rw [hP.length_eq, hP.countP_eq]
    exact inv.batch j

/-- Advancing the clock preserves the loop invariant when the engine is
blocked from assigning (empty queue or full pool). -/
theorem advanceSim_inv {pol : TriagePolicy} {s : ℕ} {es : List Encounter}
    {horizon : ℚ} {st st2 : SimState}
    (inv : SimInv pol s es st) (hpol : PolicyGood pol)
    (hgs : st.queue = [] ∨ s ≤ st.inService.length)
    (h : advanceSim pol horizon st = some st2) : SimInv pol s es st2 := by
  unfold advanceSim at h
  cases hpd : st.pending with
  | nil =>
    rw [hpd] at h
    cases hpop : popMinFinish st.inService with
    | none =>
      rw [hpop] at h
      simp at h
    | some pr =>
      obtain ⟨r, rrest⟩ := pr
      rw [hpop] at h
      dsimp only at h
      split_ifs at h with hh
      rw [Option.some_inj] at h
      subst h
      refine completionStep_inv inv hpop ?_ hgs
      rw [hpd]
      intro pp hpp
      simp at hpp
  | cons pp rest =>
    rw [hpd] at h
    cases hpop : popMinFinish st.inService with
    | none =>
      rw [hpop] at h
      dsimp only at h
      split_ifs at h with hh
      rw [Option.some_inj] at h
      subst h
      refine arrivalStep_inv inv hpol hpd ?_ hgs
      intro x hx
      rw [popMinFinish_eq_none.mp hpop] at hx
      simp at hx
    | some pr =>
      obtain ⟨r, rrest⟩ := pr
      rw [hpop] at h
      dsimp only at h
      split_ifs at h with harr hh hh
      · rw [Option.some_inj] at h
        subst h
        refine arrivalStep_inv inv hpol hpd ?_ hgs
        intro x hx
        exact le_trans harr (popMinFinish_min hpop x hx)
      · rw [Option.some_inj] at h
        subst h
        refine completionStep_inv inv hpop ?_ hgs
        have hsort := inv.pend_sorted
        rw [hpd, List.pairwise_cons] at hsort
        intro pp2 hpp2
        rw [hpd] at hpp2
        rcases List.mem_cons.mp hpp2 with heq | hmem
        · subst heq
          push_neg at harr
          exact le_of_lt harr
        · have h1 : pp.enc.arrival_min ≤ pp2.enc.arrival_min := hsort.1 pp2 hmem
          push_neg at harr
          exact le_trans (le_of_lt harr) h1

/-- One engine step preserves the loop invariant. -/
theorem stepSim_inv {pol : TriagePolicy} {s : ℕ} {es : List Encounter}
    {horizon : ℚ} {st st2 : SimState}
    (inv : SimInv pol s es st) (hpol : PolicyGood pol)
    (h : stepSim pol s horizon st = some st2) : SimInv pol s es st2 := by
  unfold stepSim at h
  rw [inv.noerr] at h
  simp only [Bool.false_eq_true, if_false] at h
  cases hq : st.queue with
  | nil =>
    rw [hq] at h
    dsimp only at h
    exact advanceSim_inv inv hpol (Or.inl hq) h
  | cons q rest =>
    rw [hq] at h
    dsimp only at h
    split_ifs at h with hlen
    · rw [Option.some_inj] at h
      subst h
      exact assignStep_inv inv hq hlen
    · exact advanceSim_inv inv hpol (Or.inr (not_lt.mp hlen)) h

/-- The termination measure of the event loop: every step the engine can take
strictly decreases it, and it starts at three per registered patient. -/
def simMeasure (st : SimState) : ℕ :=
  3 * st.pending.length + 2 * st.queue.length + st.inService.length

theorem arrivalStep_measure {pol : TriagePolicy} {st : SimState}
    {pp : PendingPatient} {rest : List PendingPatient}
    (hp : st.pending = pp :: rest) :
    simMeasure (arrivalStep pol st pp rest) < simMeasure st := by
  have hlen : st.pending.length = rest.length + 1 := by rw [hp, List.length_cons]
  unfold arrivalStep
  cases pol.assignPriority pp.enc st.rng with
  | none =>
    simp only [simMeasure]
    omega
  | some pr =>
    obtain ⟨p, r2⟩ := pr
    dsimp only
    cases pol.maxWaitOf p with
    | none =>
      simp only [simMeasure]
      omega
    | some mw =>
      simp only [simMeasure, length_insertQueue]
      omega

theorem assignStep_measure {st : SimState} {q : QueuedPatient}
    {rest : List QueuedPatient} (hq : st.queue = q :: rest) :
    simMeasure (assignStep st q rest) < simMeasure st := by
  have hlen : st.queue.length = rest.length + 1 := by rw [hq, List.length_cons]
  simp only [simMeasure, assignStep, List.length_append, List.length_cons,
    List.length_nil]
  omega

theorem completionStep_measure {st : SimState} {r : RunningPatient}
    {rrest : List RunningPatient}
    (hpop : popMinFinish st.inService = some (r, rrest)) :
    simMeasure (completionStep st r rrest) < simMeasure st := by
  have hlen : st.inService.length = rrest.length + 1 := by
    rw [(popMinFinish_perm hpop).length_eq, List.length_cons]
  simp only [simMeasure, completionStep]
  omega

theorem advanceSim_measure {pol : TriagePolicy} {horizon : ℚ} {st st2 : SimState}
    (h : advanceSim pol horizon st = some st2) : simMeasure st2 < simMeasure st := by
  unfold advanceSim at h
  cases hpd : st.pending with
  | nil =>
    rw [hpd] at h
    cases hpop : popMinFinish st.inService with
    | none =>
      rw [hpop] at h
      simp at h
    | some pr =>
      obtain ⟨r, rrest⟩ := pr
      rw [hpop] at h
      dsimp only at h
      split_ifs at h with hh
      rw [Option.some_inj] at h
      subst h
      exact completionStep_measure hpop
  | cons pp rest =>
    rw [hpd] at h
    cases hpop : popMinFinish st.inService with
    | none =>
      rw [hpop] at h
      dsimp only at h
      split_ifs at h with hh
      rw [Option.some_inj] at h
      subst h
      exact arrivalStep_measure hpd
    | some pr =>
      obtain ⟨r, rrest⟩ := pr
      rw [hpop] at h
      dsimp only at h
      split_ifs at h with harr hh hh
      · rw [Option.some_inj] at h
        subst h
        exact arrivalStep_measure hpd
      · rw [Option.some_inj] at h
        subst h
        exact completionStep_measure hpop

theorem stepSim_measure {pol : TriagePolicy} {s : ℕ} {horizon : ℚ} {st st2 : SimState}
    (h : stepSim pol s horizon st = some st2) : simMeasure st2 < simMeasure st := by
  unfold stepSim at h
  cases herr : st.error with
  | true => rw [herr] at h; simp at h
  | false =>
  rw [herr] at h
  simp only [Bool.false_eq_true, if_false] at h
  cases hq : st.queue with
  | nil =>
    rw [hq] at h
    dsimp only at h
    exact advanceSim_measure h
  | cons q rest =>
    rw [hq] at h
    dsimp only at h
    split_ifs at h with hlen
    · rw [Option.some_inj] at h
      subst h
      exact assignStep_measure hq
    · exact advanceSim_measure h

/-- With fuel above the measure, the event loop preserves the invariant and
reaches quiescence: no further step is possible at the returned state. -/
theorem simLoop_final {pol : TriagePolicy} {s : ℕ} {es : List Encounter}
    (hpol : PolicyGood pol) (horizon : ℚ) :
    ∀ (fuel : ℕ) (st : SimState), SimInv pol s es st → simMeasure st < fuel →
      SimInv pol s es (simLoop pol s horizon fuel st) ∧
        stepSim pol s horizon (simLoop pol s horizon fuel st) = none := by
  intro fuel
  induction fuel with
  | zero =>
    intro st _ hm
    exact absurd hm (Nat.not_lt_zero _)
  | succ n ih =>
    intro st hinv hm
    rw [simLoop]
    cases hstep : stepSim pol s horizon st with
    | none => exact ⟨hinv, hstep⟩
    | some st3 =>
      have hmu := stepSim_measure hstep
      exact ih st3 (stepSim_inv hinv hpol hstep) (by omega)

/-- The event loop preserves the invariant for every fuel. -/
theorem simLoop_inv {pol : TriagePolicy} {s : ℕ} {es : List Encounter}
    (hpol : PolicyGood pol) (horizon : ℚ) :
    ∀ (fuel : ℕ) (st : SimState), SimInv pol s es st →
      SimInv pol s es (simLoop pol s horizon fuel st) := by
  intro fuel
  induction fuel with
  | zero => intro st hinv; exact hinv
  | succ n ih =>
    intro st hinv
    rw [simLoop]
    cases hstep : stepSim pol s horizon st with
    | none => exact hinv
    | some st3 => exact ih st3 (stepSim_inv hinv hpol hstep)

theorem length_tagSeq : ∀ (i : ℕ) (es : List Encounter),
    (tagSeq i es).length = es.length := by
  intro i es
  induction es generalizing i with
  | nil => rfl
  | cons e rest ih =>
    simp only [tagSeq, List.length_cons]
    rw [ih]

theorem mem_tagSeq : ∀ {i : ℕ} {es : List Encounter} {pp : PendingPatient},
    pp ∈ tagSeq i es → pp.enc ∈ es := by
  intro i es
  induction es generalizing i with
  | nil => intro pp hpp; simp [tagSeq] at hpp
  | cons e rest ih =>
    intro pp hpp
    simp only [tagSeq] at hpp
    rcases List.mem_cons.mp hpp with heq | hmem
    · subst heq
      exact List.mem_cons_self _ _
    · exact List.mem_cons_of_mem _ (ih hmem)

/-- The initial engine state satisfies the loop invariant whenever no arrival
delay is negative. -/
theorem initState_inv (pol : TriagePolicy) (s : ℕ) (es : List Encounter)
    (r : Rng) (harr : ∀ e ∈ es, 0 ≤ e.arrival_min) :
    SimInv pol s es (initState es r) := by
  have hmemp : ∀ pp ∈ sortPend (tagSeq 0 es), pp.enc ∈ es :=
    fun pp hpp => mem_tagSeq (mem_sortPend.mp hpp)
  refine
    { noerr := ?_
      pend_mem := hmemp
      pend_sorted := sorted_sortPend _
      pend_time := fun pp hpp => harr pp.enc (hmemp pp hpp)
      q_time := by intro q hq; simp [initState] at hq
      q_arrL := by intro q hq; simp [initState] at hq
      q_svc := by intro q hq; simp [initState] at hq
      q_mw := by intro q hq; simp [initState] at hq
      r_start := by intro x hx; simp [initState] at hx
      r_fin := by intro x hx; simp [initState] at hx
      r_svc := by intro x hx; simp [initState] at hx
      r_mw := by intro x hx; simp [initState] at hx
      r_len := Nat.zero_le _
      ev_wait := by intro ev he; simp [initState] at he
      ev_svc := by intro ev he; simp [initState] at he
      ev_mw := by intro ev he; simp [initState] at he
      ev_fin := by intro ev he; simp [initState] at he
      comp_ev := rfl
      total := ?_
      greedy := fun hne _ => absurd rfl hne
      late := fun _ => Or.inl rfl
      batch := ?_ }
  · show es.any (fun e => decide (e.arrival_min < 0)) = false
    rw [Bool.eq_false_iff]
    intro hc
    rw [List.any_eq_true] at hc
    obtain ⟨e, he, hd⟩ := hc
    rw [decide_eq_true_eq] at hd
    exact absurd (harr e he) (not_le.mpr hd)
  · show (sortPend (tagSeq 0 es)).length + ([] : List QueuedPatient).length
        + ([] : List RunningPatient).length + ([] : List CompletionEvent).length
        = es.length
    rw [length_sortPend, length_tagSeq]
    simp
  · intro j
    show min (startsOf (initState es r)).length ((j + 1) * s) ≤ _
    simp [startsOf, initState]

/-- In any invariant state, every service started so far started within
floor((k-1) over s) cap-windows of the last arrival, k being the number of
starts: a later start would leave too few candidates for the batch count. -/
theorem starts_bounded {pol : TriagePolicy} {s : ℕ} {es : List Encounter}
    {st : SimState} (inv : SimInv pol s es st) (hs : 1 ≤ s) :
    ∀ u ∈ startsOf st, u ≤ lastArrival es
      + ((((startsOf st).length - 1) / s : ℕ) : ℚ) * 480 := by
  intro u hu
  by_contra hc
  push_neg at hc
  have hk1 : 1 ≤ (startsOf st).length := List.length_pos_of_mem hu
  have hb := inv.batch (((startsOf st).length - 1) / s)
  have hdm := Nat.div_add_mod ((startsOf st).length - 1) s
  have hmod : ((startsOf st).length - 1) % s < s := Nat.mod_lt _ (by omega)
  have hcov : (startsOf st).length ≤ (((startsOf st).length - 1) / s + 1) * s := by
    rw [Nat.add_mul, Nat.one_mul, Nat.mul_comm]
    omega
  rw [min_eq_left hcov] at hb
  have hlt : (startsOf st).countP
      (fun v => decide (v ≤ lastArrival es
        + ((((startsOf st).length - 1) / s : ℕ) : ℚ) * 480))
      < (startsOf st).length := by
    apply countP_lt_length hu
    simp only [decide_eq_false_iff_not, not_le]
    exact hc
  omega

/-- The batch count of the worst-case schedule is below the ceiling the
horizon formula uses: floor((n-1) over s) + 1 = ceil(n over s). -/
theorem ceil_batches_ge {n s : ℕ} (hn : 1 ≤ n) (hs : 1 ≤ s) :
    (((n - 1) / s : ℕ) : ℤ) + 1 ≤ qceil ((n : ℚ) / (s : ℚ)) := by
  rw [qceil_eq]
  have hspos : (0 : ℚ) < (s : ℚ) := by exact_mod_cast hs
  have h1 : ((n - 1) / s) * s < n :=
    lt_of_le_of_lt (Nat.div_mul_le_self _ _) (by omega)
  have h2 : ((((n - 1) / s : ℕ) : ℚ)) * (s : ℚ) < (n : ℚ) := by exact_mod_cast h1
  have h3 : ((((n - 1) / s : ℕ) : ℚ)) < (n : ℚ) / (s : ℚ) := (lt_div_iff₀ hspos).mpr h2
  have h4 : ((((n - 1) / s : ℕ) : ℤ)) < ⌈(n : ℚ) / (s : ℚ)⌉ := by
    rw [Int.lt_ceil]
    push_cast
    exact_mod_cast h3
  omega

/-- At a state the loop can no longer step from, under the safe horizon every
patient has completed: the pools are empty and the counter equals the batch
size. -/
theorem final_state_empty {pol : TriagePolicy} {s : ℕ} {es : List Encounter}
    {horizon : ℚ} {st : SimState}
    (inv : SimInv pol s es st) (hs : 1 ≤ s) (hne : es ≠ [])
    (hstep : stepSim pol s (safeHorizon es s horizon) st = none) :
    st.completed = es.length := by
  have hn1 : 1 ≤ es.length := List.length_pos.mpr hne
  have hB := ceil_batches_ge hn1 hs
  have hmax : max s 1 = s := max_eq_left hs
  have hH : lastArrival es + ((qceil ((es.length : ℚ) / (s : ℚ)) : ℤ) : ℚ) * 480 + 60
      ≤ safeHorizon es s horizon := by
    unfold safeHorizon
    dsimp only
    rw [hmax]
    exact le_max_right _ _
  have hkn : (startsOf st).length ≤ es.length := by
    have htot := inv.total
    have hk : (startsOf st).length = st.events.length + st.inService.length := by
      simp [startsOf]
    omega
  have hstarts := starts_bounded inv hs
  have hfinb : ∀ x ∈ st.inService, x.finish < safeHorizon es s horizon := by
    intro x hx
    have hmem : x.start ∈ startsOf st :=
      List.mem_append_right _ (List.mem_map_of_mem _ hx)
    have h1 := hstarts x.start hmem
    have hdiv : ((startsOf st).length - 1) / s ≤ (es.length - 1) / s :=
      Nat.div_le_div_right (by omega)
    have hdivq : ((((startsOf st).length - 1) / s : ℕ) : ℚ)
        ≤ (((es.length - 1) / s : ℕ) : ℚ) := by exact_mod_cast hdiv
    have hmul1 := mul_le_mul_of_nonneg_right hdivq (by norm_num : (0:ℚ) ≤ 480)
    have hsv := (inv.r_svc x hx).2
    have h3 : x.finish ≤ lastArrival es + (((es.length - 1) / s : ℕ) : ℚ) * 480 + 480 := by
      unfold RunningPatient.finish
      linarith
    have h4 : ((((es.length - 1) / s : ℕ) : ℚ)) + 1
        ≤ ((qceil ((es.length : ℚ) / (s : ℚ)) : ℤ) : ℚ) := by
      have h5 : (((((es.length - 1) / s : ℕ) : ℤ) + 1 : ℤ) : ℚ)
          ≤ ((qceil ((es.length : ℚ) / (s : ℚ)) : ℤ) : ℚ) := Int.cast_le.mpr hB
      push_cast at h5
      exact h5
    have hmul2 := mul_le_mul_of_nonneg_right h4 (by norm_num : (0:ℚ) ≤ 480)
    rw [add_mul, one_mul] at hmul2
    linarith
  have hLH : lastArrival es + 540 ≤ safeHorizon es s horizon := by
    have hc1 : (1 : ℤ) ≤ qceil ((es.length : ℚ) / (s : ℚ)) := by
      have hge0 : (0 : ℤ) ≤ (((es.length - 1) / s : ℕ) : ℤ) := Int.natCast_nonneg _
      omega
    have hc1q : (1 : ℚ) ≤ ((qceil ((es.length : ℚ) / (s : ℚ)) : ℤ) : ℚ) := by
      exact_mod_cast hc1
    have hmul := mul_le_mul_of_nonneg_right hc1q (by norm_num : (0:ℚ) ≤ 480)
    rw [one_mul] at hmul
    linarith
  have harrb : ∀ pp ∈ st.pending, pp.enc.arrival_min < safeHorizon es s horizon := by
    intro pp hpp
    have := le_lastArrival (inv.pend_mem pp hpp)
    linarith
  unfold stepSim at hstep
  rw [inv.noerr] at hstep
  simp only [Bool.false_eq_true, if_false] at hstep
  have hq : st.queue = [] := by
    by_contra hqne
    obtain ⟨q, rest, hq⟩ := List.exists_cons_of_ne_nil hqne
    rw [hq] at hstep
    dsimp only at hstep
    split_ifs at hstep with hlen
    have hlen2 : 1 ≤ st.inService.length := by omega
    have hne2 : st.inService ≠ [] := by
      intro h0
      rw [h0] at hlen2
      simp at hlen2
    cases hpop : popMinFinish st.inService with
    | none => exact hne2 (popMinFinish_eq_none.mp hpop)
    | some pr =>
      obtain ⟨r, rrest⟩ := pr
      have hrm : r ∈ st.inService :=
        (popMinFinish_perm hpop).mem_iff.mpr (List.mem_cons_self _ _)
      have hrfH := hfinb r hrm
      unfold advanceSim at hstep
      rw [hpop] at hstep
      cases hpd : st.pending with
      | nil =>
        rw [hpd] at hstep
        dsimp only at hstep
        rw [if_pos hrfH] at hstep
        simp at hstep
      | cons pp prest =>
        rw [hpd] at hstep
        dsimp only at hstep
        have harrH : pp.enc.arrival_min < safeHorizon es s horizon :=
          harrb pp (hpd ▸ List.mem_cons_self _ _)
        rw [if_pos harrH, if_pos hrfH] at hstep
        split_ifs at hstep
  rw [hq] at hstep
  dsimp only at hstep
  unfold advanceSim at hstep
  cases hpd : st.pending with
  | cons pp prest =>
    rw [hpd] at hstep
    have harrH : pp.enc.arrival_min < safeHorizon es s horizon :=
      harrb pp (hpd ▸ List.mem_cons_self _ _)
    cases hpop : popMinFinish st.inService with
    | none =>
      rw [hpop] at hstep
      dsimp only at hstep
      rw [if_pos harrH] at hstep
      simp at hstep
    | some pr =>
      obtain ⟨r, rrest⟩ := pr
      rw [hpop] at hstep
      dsimp only at hstep
      have hrm : r ∈ st.inService :=
        (popMinFinish_perm hpop).mem_iff.mpr (List.mem_cons_self _ _)
      have hrfH := hfinb r hrm
      rw [if_pos harrH, if_pos hrfH] at hstep
      split_ifs at hstep
  | nil =>
    rw [hpd] at hstep
    cases hpop : popMinFinish st.inService with
    | some pr =>
      obtain ⟨r, rrest⟩ := pr
      rw [hpop] at hstep
      dsimp only at hstep
      have hrm : r ∈ st.inService :=
        (popMinFinish_perm hpop).mem_iff.mpr (List.mem_cons_self _ _)
      rw [if_pos (hfinb r hrm)] at hstep
      simp at hstep
    | none =>
      have hin : st.inService = [] := popMinFinish_eq_none.mp hpop
      have htot := inv.total
      rw [hpd, hq, hin] at htot
      simp only [List.length_nil] at htot
      rw [inv.comp_ev]
      omega

/-- C2 (completion totality): for every finite encounter batch with
non-negative arrival offsets, at least one server, and any policy satisfying
the policy facts (the rule-based policy does, see manchesterPolicy_good, and
a failed assignment would abort the run rather than drop a patient), after
run_simulation returns under any externally supplied horizon the completed
counter equals the number of encounters: every patient produces exactly one
completion event within the computed safe horizon and none is silently
dropped. -/
theorem c2_completion_totality (pol : TriagePolicy) (hpol : PolicyGood pol)
    (servers : ℕ) (hs : 1 ≤ servers) (es : List Encounter)
    (harr : ∀ e ∈ es, 0 ≤ e.arrival_min) (horizon : ℚ) (r : Rng) :
    (runSimulation pol servers es horizon r).completed = es.length := by
  by_cases hne : es = []
  · subst hne
    rfl
  · have hinv := initState_inv pol servers es r harr
    have hmu : simMeasure (initState es r) < 3 * es.length + 1 := by
      simp only [simMeasure, initState, List.length_nil]
      rw [length_sortPend, length_tagSeq]
      omega
    obtain ⟨hfinv, hfstep⟩ :=
      simLoop_final hpol (safeHorizon es servers horizon) (3 * es.length + 1)
        (initState es r) hinv hmu
    exact final_state_empty hfinv hs hne hfstep

/-- C2 witness: a concrete two-patient batch on one server under the
rule-based policy with the spec-modelled configuration. -/
theorem c2_completion_totality_witness :
    ((1:ℕ) ≤ 1 ∧ ∀ e ∈ [encBlank, encCardiacArrest], 0 ≤ e.arrival_min) ∧
    (runSimulation (manchesterPolicy specMtsConfig pmSub) 1
        [encBlank, encCardiacArrest] 0 []).completed
      = ([encBlank, encCardiacArrest] : List Encounter).length :=
  ⟨⟨le_refl 1, by decide⟩,
   c2_completion_totality (manchesterPolicy specMtsConfig pmSub)
     (manchesterPolicy_good specMtsConfig (by decide) pmSub) 1 (by decide)
     [encBlank, encCardiacArrest] (by decide) 0 []⟩

/-- C9 (engine bookkeeping invariant): throughout any run of the engine with
the rule-based policy under a valid configuration — after every number of
loop steps, not only at the end — the completed counter equals the length of
the event log, and every logged event has non-negative wait, strictly
positive service time, and the max-wait taken from its priority level's
metadata; counter and log only move together at a completion step. -/
theorem c9_engine_invariant (cfg : MtsConfig) (hv : mtsConfigValid cfg)
    (pm : String → String → ℚ) (servers : ℕ) (es : List Encounter)
    (harr : ∀ e ∈ es, 0 ≤ e.arrival_min) (horizon : ℚ) (r : Rng) (fuel : ℕ) :
    (simLoop (manchesterPolicy cfg pm) servers (safeHorizon es servers horizon)
        fuel (initState es r)).completed
      = (simLoop (manchesterPolicy cfg pm) servers (safeHorizon es servers horizon)
          fuel (initState es r)).events.length ∧
    ∀ ev ∈ (simLoop (manchesterPolicy cfg pm) servers
        (safeHorizon es servers horizon) fuel (initState es r)).events,
      0 ≤ ev.wait_min ∧ 0 < ev.service_min ∧
        (getPriorityInfo cfg ev.priority).map (fun i => i.max_wait_min)
          = some ev.max_wait_min := by
  have hinv := simLoop_inv (manchesterPolicy_good cfg hv pm)
    (safeHorizon es servers horizon) fuel (initState es r)
    (initState_inv _ servers es r harr)
  exact ⟨hinv.comp_ev,
    fun ev he => ⟨hinv.ev_wait ev he, (hinv.ev_svc ev he).1, hinv.ev_mw ev he⟩⟩

/-- C9 witness: the invariant at a concrete prefix of a concrete run. -/
theorem c9_engine_invariant_witness :
    (mtsConfigValid specMtsConfig
      ∧ ∀ e ∈ [encBlank, encCardiacArrest], 0 ≤ e.arrival_min) ∧
    ((simLoop (manchesterPolicy specMtsConfig pmSub) 1
        (safeHorizon [encBlank, encCardiacArrest] 1 0) 3
        (initState [encBlank, encCardiacArrest] [])).completed
      = (simLoop (manchesterPolicy specMtsConfig pmSub) 1
          (safeHorizon [encBlank, encCardiacArrest] 1 0) 3
          (initState [encBlank, encCardiacArrest] [])).events.length ∧
    ∀ ev ∈ (simLoop (manchesterPolicy specMtsConfig pmSub) 1
        (safeHorizon [encBlank, encCardiacArrest] 1 0) 3
        (initState [encBlank, encCardiacArrest] [])).events,
      0 ≤ ev.wait_min ∧ 0 < ev.service_min ∧
        (getPriorityInfo specMtsConfig ev.priority).map (fun i => i.max_wait_min)
          = some ev.max_wait_min) :=
  ⟨⟨by decide, by decide⟩,
   c9_engine_invariant specMtsConfig (by decide) pmSub 1
     [encBlank, encCardiacArrest] (by decide) 0 [] 3⟩

end PMS
